import Mathlib

/-!
Shallow embedding of the `DownloadQueue` class from
`react-native-background-downloader-queue` (src, core module).

The class keeps a list of persisted `Spec` records, a list of live download
`Task`s, a key-value store (`kvfs`, AsyncStorage-backed), and flags driving
pause/resume arbitration.  External effects are made explicit:

* the filesystem is a list of `(path, size)` pairs (`RNFS.exists` is
  membership, `RNFS.unlink` removes the path, `RNFS.stat` looks up the size);
* the key-value store is an association list from full keys to records;
* `download()` invocations are logged in `startedLog`;
* `kvfs.write` calls are logged in `writeLog`;
* handler notifications (`onBegin`/`onDone`/`onWillRemove`) are appended to
  `events`;
* an unswallowed exception sets `threw`.

`Date.now()` and `uuid()` are passed in as explicit `now` / `freshId`
arguments.
-/

/-- One persisted record, mirroring `interface Spec`.  `createTime > 0` means
active; `0` means delete on next launch; `< 0` means lazily deleted with
deadline `-createTime`. -/
structure Spec where
  id : String
  url : String
  path : String
  createTime : Int
  finished : Bool
deriving DecidableEq, Repr

/-- An in-flight transfer handle returned by the download provider.  Only the
fields the queue observes are kept; `paused` tracks pause()/resume() calls. -/
structure DLTask where
  id : String
  url : String
  paused : Bool
deriving DecidableEq, Repr

/-- Status record returned by getQueueStatus / getStatus. -/
structure DownloadQueueStatus where
  url : String
  path : String
  complete : Bool
deriving DecidableEq, Repr

/-- Subset of NetInfo state consumed by the queue.  `isConnected` is
`boolean | null` in the source; JS truthiness makes `null` count as
disconnected. -/
structure DownloadQueueNetInfoState where
  isConnected : Option Bool
  type : String
deriving DecidableEq, Repr

/-- Handler notifications observed by the client, in call order. -/
inductive Event where
  | onBegin (url : String) (totalBytes : Nat)
  | onDone (url : String) (localPath : String)
  | onWillRemove (url : String)
deriving DecidableEq, Repr

/-- Whole-queue state: the private fields of class `DownloadQueue` plus the
explicit world (filesystem, key-value store) and observation logs. -/
structure DownloadQueue where
  domain : String
  urlToPath : Option (String → String)
  specs : List Spec
  tasks : List DLTask
  kvfs : List (String × Spec)
  fs : List (String × Nat)
  active : Bool
  wouldAutoPause : Bool
  isPausedByUser : Bool
  activeNetworkTypes : List String
  erroredIds : List String
  errorTimer : Bool
  timerWakeUps : List Int
  startedLog : List String
  writeLog : List String
  events : List Event
  threw : Bool

/-- `function roundToNextMinute(timestamp)`: `Math.ceil(t / 60000) * 60000`. -/
def roundToNextMinute (timestamp : Int) : Int :=
  ((timestamp + 59999).ediv 60000) * 60000

/-- `function basePath()`: documents directory plus the fixed prefix. -/
def basePath : String :=
  "Documents/DownloadQueue"

/-- JS `String.prototype.split` with a one-character separator, on the
character list: `"".split(c)` is `[""]`, and separators at the ends produce
empty fragments, exactly as in JS. -/
def splitOnChar (c : Char) : List Char → List (List Char)
  | [] => [[]]
  | ch :: rest =>
    let r := splitOnChar c rest
    if ch == c then [] :: r
    else
      match r with
      | [] => [[ch]]
      | hd :: tl => (ch :: hd) :: tl

/-- JS `s.split(c)` for a one-character separator `c`. -/
def jsSplit (c : Char) (s : String) : List String :=
  (splitOnChar c s.data).map String.mk

/-- JS `parts.join(sep)`. -/
def joinWith (sep : String) : List String → String
  | [] => ""
  | [s] => s
  | s :: rest => s ++ sep ++ joinWith sep rest

/-- Replace the first element satisfying `p` by its `f`-image (models in-place
mutation of the object found by `find`/`findIndex`). -/
def updateFirst (p : Spec → Bool) (f : Spec → Spec) : List Spec → List Spec
  | [] => []
  | s :: rest => if p s then f s :: rest else s :: updateFirst p f rest

/-- Drop the first element satisfying `p` (models `splice(index, 1)`). -/
def removeFirst (p : Spec → Bool) : List Spec → List Spec
  | [] => []
  | s :: rest => if p s then rest else s :: removeFirst p rest

/-- Association-list write for the key-value store. -/
def kvWrite (store : List (String × Spec)) (key : String) (v : Spec) :
    List (String × Spec) :=
  store.filter (fun e => e.1 != key) ++ [(key, v)]

/-- Association-list removal for the key-value store. -/
def kvRemove (store : List (String × Spec)) (key : String) :
    List (String × Spec) :=
  store.filter (fun e => e.1 != key)

/-- Association-list lookup for the key-value store. -/
def kvRead (store : List (String × Spec)) (key : String) : Option Spec :=
  (store.find? (fun e => e.1 == key)).map (·.2)

namespace DownloadQueue

/-- `RNFS.exists(path)`. -/
def fsExists (dq : DownloadQueue) (path : String) : Bool :=
  dq.fs.any (fun f => f.1 == path)

/-- `RNFS.stat(path)` (only the `size` field is consumed); `none` models the
rejection thrown for a missing file. -/
def fsStat (dq : DownloadQueue) (path : String) : Option Nat :=
  (dq.fs.find? (fun f => f.1 == path)).map (·.2)

/-- `RNFS.unlink(path)` at a call site whose failure is swallowed. -/
def unlinkSwallow (dq : DownloadQueue) (path : String) : DownloadQueue :=
  { dq with fs := dq.fs.filter (fun f => f.1 != path) }

/-- `private getDomainedBasePath()`. -/
def getDomainedBasePath (dq : DownloadQueue) : String :=
  basePath ++ "/" ++ dq.domain

/-- `private pathFromId(id, extension)`. -/
def pathFromId (dq : DownloadQueue) (id extension : String) : String :=
  dq.getDomainedBasePath ++ "/" ++ id ++
    (if extension.length > 0 then "." ++ extension else "")

/-- `private keyFromId(id)`. -/
def keyFromId (dq : DownloadQueue) (id : String) : String :=
  "/" ++ dq.domain ++ "/" ++ id

/-- `private extensionFromUri(uri)`: extension of the filename produced by the
configured `urlToPath`, or `""`.  The `if (path)` / `if (filename)` guards are
JS truthiness checks on strings. -/
def extensionFromUri (dq : DownloadQueue) (uri : String) : String :=
  match dq.urlToPath with
  | none => ""
  | some f =>
    let path := f uri
    if path == "" then ""
    else
      match (jsSplit '/' path).getLast? with
      | none => ""
      | some filename =>
        if filename == "" then ""
        else
          let parts := jsSplit '.' filename
          if parts.length > 1 then (parts.getLast?).getD "" else ""

/-- `this.kvfs.write(key, value)` plus its log entry. -/
def kvfsWrite (dq : DownloadQueue) (key : String) (v : Spec) : DownloadQueue :=
  { dq with kvfs := kvWrite dq.kvfs key v, writeLog := dq.writeLog ++ [key] }

/-- `this.kvfs.rm(key)`. -/
def kvfsRm (dq : DownloadQueue) (key : String) : DownloadQueue :=
  { dq with kvfs := kvRemove dq.kvfs key }

/-- Append a handler notification. -/
def emit (dq : DownloadQueue) (e : Event) : DownloadQueue :=
  { dq with events := dq.events ++ [e] }

/-- `private removeTask(id)`: drop the task from the list, drop the id from
`erroredIds`, and clear the error timer once no errored ids remain.  Returns
the removed task, as the source does. -/
def removeTask (dq : DownloadQueue) (id : String) :
    DownloadQueue × Option DLTask :=
  let task := dq.tasks.find? (fun t => t.id == id)
  let tasks := match dq.tasks.findIdx? (fun t => t.id == id) with
    | some i => dq.tasks.eraseIdx i
    | none => dq.tasks
  let erroredIds := dq.erroredIds.filter (fun e => e != id)
  let errorTimer := if erroredIds.isEmpty then false else dq.errorTimer
  ({ dq with tasks := tasks, erroredIds := erroredIds,
             errorTimer := errorTimer }, task)

/-- `private addTask(url, task)`: callback registration is modelled by the
standalone handler functions below; the task is pushed onto the list. -/
def addTask (dq : DownloadQueue) (task : DLTask) : DownloadQueue :=
  { dq with tasks := dq.tasks ++ [task] }

/-- `private start(spec)`: `download({id, url, destination})`, push the task
and pause it when the queue is inactive (modelled by creating the task already
paused in that case).  The `download()` call is logged in `startedLog`. -/
def start (dq : DownloadQueue) (spec : Spec) : DownloadQueue :=
  let task : DLTask := { id := spec.id, url := spec.url, paused := !dq.active }
  { addTask dq task with startedLog := dq.startedLog ++ [spec.id] }

/-- `private scheduleDeletions(toDelete, basisTimestamp)`: one wake-up time
per distinct whole-minute boundary (the `Set` keeps first-insertion order);
the pending `deleteExpiredSpecs(wakeUpTime)` timers are recorded as the wake
times themselves. -/
def scheduleDeletions (dq : DownloadQueue) (toDelete : List Spec)
    (_basisTimestamp : Int) : DownloadQueue :=
  let wakeUpTimes := toDelete.foldl
    (fun acc spec =>
      let w := roundToNextMinute (-spec.createTime)
      if acc.contains w then acc else acc ++ [w]) []
  { dq with timerWakeUps := dq.timerWakeUps ++ wakeUpTimes }

/-- `async addUrl(url)` (after `verifyInitialized`).  `now` is `Date.now()`
and `freshId` the `uuid()` that would be drawn for a brand-new record. -/
def addUrl (dq : DownloadQueue) (url : String) (now : Int) (freshId : String) :
    DownloadQueue :=
  match dq.specs.find? (fun spec => spec.url == url) with
  | some curSpec =>
    if curSpec.createTime ≤ 0 then
      let revived : Spec := { curSpec with createTime := now }
      let dq1 := { dq with
        specs := updateFirst (fun spec => spec.url == url)
          (fun s => { s with createTime := now }) dq.specs }
      let fileExists :=
        dq1.fsExists (dq1.pathFromId revived.id (dq1.extensionFromUri revived.url))
      let dq2 := dq1.kvfsWrite (dq1.keyFromId revived.id) revived
      if !revived.finished || !fileExists then
        dq2.start revived
      else
        match dq2.fsStat revived.path with
        | some size =>
          let dq3 := dq2.emit (.onBegin revived.url size)
          dq3.emit (.onDone revived.url revived.path)
        | none => { dq2 with threw := true }
    else dq
  | none =>
    let spec : Spec :=
      { id := freshId, url := url,
        path := dq.pathFromId freshId (dq.extensionFromUri url),
        createTime := now, finished := false }
    let dq1 := dq.kvfsWrite (dq.keyFromId freshId) spec
    let dq2 := { dq1 with specs := dq1.specs ++ [spec] }
    dq2.start spec

/-- `private async removeUrlInternal(url, deleteTime, scheduleDeletion)`. -/
def removeUrlInternal (dq : DownloadQueue) (url : String) (deleteTime : Int)
    (scheduleDeletion : Bool) (now : Int) : DownloadQueue :=
  match dq.specs.find? (fun spec => spec.url == url) with
  | none => dq
  | some spec =>
    let dq1 := dq.emit (.onWillRemove spec.url)
    let dq2 := (dq1.removeTask spec.id).1
    if 0 ≤ deleteTime then
      let spec' : Spec := { spec with createTime := -deleteTime }
      let dq3 := { dq2 with
        specs := updateFirst (fun s => s.url == url)
          (fun s => { s with createTime := -deleteTime }) dq2.specs }
      let dq4 := dq3.kvfsWrite (dq3.keyFromId spec.id) spec'
      if scheduleDeletion && decide (0 < deleteTime) then
        dq4.scheduleDeletions [spec'] now
      else dq4
    else
      let dq3 := dq2.kvfsRm (dq2.keyFromId spec.id)
      let dq4 := { dq3 with
        specs := removeFirst (fun s => s.url == url) dq3.specs }
      dq4.unlinkSwallow spec.path

/-- `async removeUrl(url, deleteTime = -1)` (after `verifyInitialized`). -/
def removeUrl (dq : DownloadQueue) (url : String) (deleteTime : Int)
    (now : Int) : DownloadQueue :=
  dq.removeUrlInternal url deleteTime true now

/-- The `for (const url of urlsToRemove)` loop of `setQueue`. -/
def removeFold (deleteTime now : Int) :
    List String → DownloadQueue → DownloadQueue
  | [], st => st
  | u :: rest, st =>
    removeFold deleteTime now rest (st.removeUrlInternal u deleteTime false now)

/-- The `for (const url of urlsToAdd)` loop of `setQueue`; the `Nat` argument
indexes into the fresh-id supply. -/
def addFold (freshIds : Nat → String) (now : Int) :
    Nat → List String → DownloadQueue → DownloadQueue
  | _, [], st => st
  | i, u :: rest, st =>
    addFold freshIds now (i + 1) rest (st.addUrl u now (freshIds i))

/-- `async setQueue(urls, deleteTime = -1)` (after `verifyInitialized`).
In the source `specsToRemove` aliases the very objects that
`removeUrlInternal` mutates, so the batched `scheduleDeletions` call sees
`createTime = -deleteTime` on each removed spec when `deleteTime >= 0`;
`removedNow` reproduces those post-mutation values. -/
def setQueue (dq : DownloadQueue) (urls : List String) (deleteTime : Int)
    (now : Int) (freshIds : Nat → String) : DownloadQueue :=
  let liveUrls :=
    (dq.specs.filter (fun spec => decide (0 < spec.createTime))).map (·.url)
  let urlsToAdd := urls.filter (fun url => !liveUrls.contains url)
  let specsToRemove := dq.specs.filter
    (fun spec => !urls.contains spec.url && decide (0 < spec.createTime))
  let urlsToRemove := specsToRemove.map (·.url)
  let st1 := removeFold deleteTime now urlsToRemove dq
  let removedNow := specsToRemove.map
    (fun s => if 0 ≤ deleteTime then { s with createTime := -deleteTime } else s)
  let st2 := st1.scheduleDeletions removedNow now
  addFold freshIds now 0 urlsToAdd st2

/-- `async getQueueStatus()` (after `verifyInitialized`). -/
def getQueueStatus (dq : DownloadQueue) : List DownloadQueueStatus :=
  (dq.specs.filter (fun spec => decide (0 < spec.createTime))).map
    (fun spec =>
      { url := spec.url, path := spec.path,
        complete := spec.finished && dq.fsExists spec.path })

/-- `async getStatus(url)` (after `verifyInitialized`). -/
def getStatus (dq : DownloadQueue) (url : String) :
    Option DownloadQueueStatus :=
  match dq.specs.find?
      (fun spec => spec.url == url && decide (0 < spec.createTime)) with
  | none => none
  | some spec =>
    some { url := spec.url, path := spec.path,
           complete := spec.finished && dq.fsExists spec.path }

/-- `async getAvailableUrl(url)` (after `verifyInitialized`). -/
def getAvailableUrl (dq : DownloadQueue) (url : String) : String :=
  match dq.specs.find? (fun spec => spec.url == url) with
  | none => url
  | some spec =>
    if !spec.finished then url
    else if dq.fsExists spec.path then spec.path else url

/-- `private ensureErrorTimerOn()`. -/
def ensureErrorTimerOn (dq : DownloadQueue) : DownloadQueue :=
  if !dq.errorTimer then { dq with errorTimer := true } else dq

/-- `private pauseAllInternal()`. -/
def pauseAllInternal (dq : DownloadQueue) : DownloadQueue :=
  { dq with active := false,
            tasks := dq.tasks.map (fun t => { t with paused := true }),
            errorTimer := false }

/-- `pauseAll()` (after `verifyInitialized`). -/
def pauseAll (dq : DownloadQueue) : DownloadQueue :=
  pauseAllInternal { dq with isPausedByUser := true }

/-- `private resumeAllInternal()`. -/
def resumeAllInternal (dq : DownloadQueue) : DownloadQueue :=
  let dq1 := { dq with
                 active := true,
                 tasks := dq.tasks.map (fun t => { t with paused := false }) }
  if 0 < dq1.erroredIds.length then dq1.ensureErrorTimerOn else dq1

/-- `resumeAll()` (after `verifyInitialized`). -/
def resumeAll (dq : DownloadQueue) : DownloadQueue :=
  let dq1 := { dq with isPausedByUser := false }
  if !dq1.wouldAutoPause then dq1.resumeAllInternal else dq1

/-- The `shouldAutoPause` expression computed by `onNetInfoChanged`. -/
def shouldAutoPause (dq : DownloadQueue)
    (state : DownloadQueueNetInfoState) : Bool :=
  !(state.isConnected == some true) ||
    (0 < dq.activeNetworkTypes.length &&
      !(dq.activeNetworkTypes.contains state.type))

/-- `private onNetInfoChanged(state)`. -/
def onNetInfoChanged (dq : DownloadQueue)
    (state : DownloadQueueNetInfoState) : DownloadQueue :=
  let s := dq.shouldAutoPause state
  if s == dq.wouldAutoPause then dq
  else
    let dq1 := { dq with wouldAutoPause := s }
    if !dq1.isPausedByUser then
      if s then dq1.pauseAllInternal else dq1.resumeAllInternal
    else dq1

/-- The `.done(async () => ...)` handler registered by `addTask`, with the
captured `url` and the task id made explicit.  The iOS `completeHandler`
acknowledgment is an external call with no engine-visible state. -/
def taskDoneHandler (dq : DownloadQueue) (url : String) (taskId : String) :
    DownloadQueue :=
  match dq.specs.find? (fun spec => spec.url == url) with
  | none => dq
  | some spec =>
    let dq1 := (dq.removeTask taskId).1
    let spec' : Spec := { spec with finished := true }
    let dq2 := { dq1 with
      specs := updateFirst (fun s => s.url == url)
        (fun s => { s with finished := true }) dq1.specs }
    let dq3 := dq2.kvfsWrite (dq2.keyFromId spec.id) spec'
    dq3.emit (.onDone url spec'.path)

/-- The orphan-file cleanup step of `init` (source lines 265-287): `dq.specs`
is the record set after the purge of expired records, `dirFilenames` the
listing of the domain directory.  Filenames with a dot are split into stem
and extension before the path is rebuilt for `unlink`. -/
def initOrphanCleanup (dq : DownloadQueue) (dirFilenames : List String) :
    DownloadQueue :=
  let orphanedFiles := dirFilenames.filter
    (fun filename => !dq.specs.any (fun spec => spec.id == filename))
  orphanedFiles.foldl
    (fun acc filename =>
      let parts := jsSplit '.' filename
      if parts.length > 1 then
        let extension := (parts.getLast?).getD ""
        acc.unlinkSwallow
          (acc.pathFromId (joinWith "." parts.dropLast) extension)
      else
        acc.unlinkSwallow (acc.pathFromId filename "")) dq

end DownloadQueue

/-- A queue with no records, no tasks, empty stores: the state right after a
first `init` on a fresh install. -/
def emptyDQ : DownloadQueue :=
  { domain := "main", urlToPath := none, specs := [], tasks := [], kvfs := [],
    fs := [], active := true, wouldAutoPause := false, isPausedByUser := false,
    activeNetworkTypes := [], erroredIds := [], errorTimer := false,
    timerWakeUps := [], startedLog := [], writeLog := [], events := [],
    threw := false }

/-- A finished record whose id is `abc` and whose file was written with an
`mp3` extension (the layout produced when `urlToPath` preserves extensions). -/
def cSpecAbc : Spec :=
  { id := "abc", url := "http://foo.com/a.mp3",
    path := "Documents/DownloadQueue/main/abc.mp3", createTime := 5,
    finished := true }

/-- Queue state holding `cSpecAbc` with its file present on disk. -/
def cDqOrphan : DownloadQueue :=
  { emptyDQ with specs := [cSpecAbc],
                 fs := [("Documents/DownloadQueue/main/abc.mp3", 3)] }

/-- Record for a different url, used to build rogue-callback states. -/
def cSpecOther : Spec :=
  { id := "other-id", url := "http://other", path := "Documents/DownloadQueue/main/other-id",
    createTime := 7, finished := false }

/-- State with one unrelated record and a still-registered task whose record
was removed. -/
def cDqRogue : DownloadQueue :=
  { emptyDQ with specs := [cSpecOther],
                 tasks := [{ id := "dead-task", url := "http://gone", paused := false }] }

/-- A finished record with its file present. -/
def cSpecFin : Spec :=
  { id := "fin-id", url := "http://a/x.mp3",
    path := "Documents/DownloadQueue/main/fin-id", createTime := 11,
    finished := true }

/-- State where `cSpecFin` is complete on disk. -/
def cDqAvail : DownloadQueue :=
  { emptyDQ with specs := [cSpecFin],
                 fs := [("Documents/DownloadQueue/main/fin-id", 42)] }

/-- A lazily-deleted finished record. -/
def cSpecLazy : Spec :=
  { id := "lazy-id", url := "http://lazy/x",
    path := "Documents/DownloadQueue/main/lazy-id", createTime := -99,
    finished := true }

/-- State where `cSpecLazy`'s file still exists on disk. -/
def cDqLazy : DownloadQueue :=
  { emptyDQ with specs := [cSpecLazy],
                 fs := [("Documents/DownloadQueue/main/lazy-id", 8)] }

/-- State mixing an active unfinished record with a missing file, an active
finished record with its file, and a lazily-deleted record. -/
def cDqStatus : DownloadQueue :=
  { emptyDQ with specs := [cSpecFin, cSpecOther, cSpecLazy],
                 fs := [("Documents/DownloadQueue/main/fin-id", 42)] }

/-- Queue allowing only wifi, with one running task. -/
def cDqNet : DownloadQueue :=
  { emptyDQ with activeNetworkTypes := ["wifi"],
                 tasks := [{ id := "t1", url := "http://u", paused := false }] }

/-- NetInfo event: connected over cellular. -/
def cStCell : DownloadQueueNetInfoState :=
  { isConnected := some true, type := "cellular" }

/-- Protection predicate during the removal loop: the record `p` is present
untouched, is the only record matching its id/url/path, and its storage entry
and file-existence bit still have their initial values. -/
def ShieldR (dom : String) (p : Spec) (k : Option Spec) (fb : Bool)
    (st : DownloadQueue) : Prop :=
  st.domain = dom ∧ p ∈ st.specs ∧
  (∀ s ∈ st.specs, (s.id = p.id ∨ s.url = p.url ∨ s.path = p.path) → s = p) ∧
  st.specs.countP (fun s => s.id == p.id) = 1 ∧
  kvRead st.kvfs ("/" ++ dom ++ "/" ++ p.id) = k ∧
  st.fsExists p.path = fb

/-- Protection predicate during the add loop (the filesystem needs no
tracking there, `addUrl` never writes to it). -/
def ShieldA (dom : String) (p : Spec) (k : Option Spec)
    (st : DownloadQueue) : Prop :=
  st.domain = dom ∧ p ∈ st.specs ∧
  (∀ s ∈ st.specs, (s.id = p.id ∨ s.url = p.url) → s = p) ∧
  kvRead st.kvfs ("/" ++ dom ++ "/" ++ p.id) = k

/-- After an eager removal of `p`: no record carries its id or url, its
storage entry is gone and its file no longer exists. -/
def Gone (dom : String) (p : Spec) (st : DownloadQueue) : Prop :=
  st.domain = dom ∧
  (∀ s ∈ st.specs, s.id ≠ p.id ∧ s.url ≠ p.url) ∧
  kvRead st.kvfs ("/" ++ dom ++ "/" ++ p.id) = none ∧
  st.fsExists p.path = false

/-- Fresh-id supply for the setQueue witness. -/
def cFresh : Nat → String := fun _ => "fresh-id"

/-- Desired url set for the setQueue witness. -/
def cUrls : List String := ["http://a/x.mp3", "http://new/1"]

/-- Queue holding a lazily-deleted record outside the new set, an active
record inside it, and an active record outside it. -/
def cDqSet : DownloadQueue :=
  { emptyDQ with
      specs := [cSpecLazy, cSpecFin, cSpecOther],
      fs := [("Documents/DownloadQueue/main/other-id", 1),
             ("Documents/DownloadQueue/main/lazy-id", 8)],
      kvfs := [("/main/other-id", cSpecOther)] }

section ListHelpers

theorem find?_append_of_none {α : Type} (p : α → Bool) {l1 : List α}
    (l2 : List α) (h : l1.find? p = none) :
    (l1 ++ l2).find? p = l2.find? p := by
  induction l1 with
  | nil => rfl
  | cons a t ih =>
    cases hpa : p a with
    | true => rw [List.find?_cons_of_pos _ hpa] at h; exact absurd h (by simp)
    | false =>
      rw [List.find?_cons_of_neg _ (by simp [hpa])] at h
      rw [List.cons_append, List.find?_cons_of_neg _ (by simp [hpa])]
      exact ih h

theorem find?_filter_comm {α : Type} (p q : α → Bool) (l : List α)
    (h : ∀ a, p a = true → q a = true) :
    (l.filter q).find? p = l.find? p := by
  induction l with
  | nil => rfl
  | cons a t ih =>
    cases hpa : p a with
    | true =>
      have hqa : q a = true := h a hpa
      rw [List.filter_cons_of_pos hqa, List.find?_cons_of_pos _ hpa,
        List.find?_cons_of_pos _ hpa]
    | false =>
      cases hqa : q a with
      | true =>
        rw [List.filter_cons_of_pos hqa, List.find?_cons_of_neg _ (by simp [hpa]),
          List.find?_cons_of_neg _ (by simp [hpa])]
        exact ih
      | false =>
        rw [List.filter_cons_of_neg (by simp [hqa]),
          List.find?_cons_of_neg _ (by simp [hpa])]
        exact ih

theorem any_filter_comm {α : Type} (p q : α → Bool) (l : List α)
    (h : ∀ a, p a = true → q a = true) :
    (l.filter q).any p = l.any p := by
  induction l with
  | nil => rfl
  | cons a t ih =>
    cases hpa : p a with
    | true =>
      have hqa : q a = true := h a hpa
      rw [List.filter_cons_of_pos hqa]
      simp [hpa, ih]
    | false =>
      cases hqa : q a with
      | true => rw [List.filter_cons_of_pos hqa]; simp [hpa, ih]
      | false => rw [List.filter_cons_of_neg (by simp [hqa])]; simp [hpa, ih]

end ListHelpers

section KvFsHelpers

theorem kvRead_write_self (store : List (String × Spec)) (k : String)
    (v : Spec) : kvRead (kvWrite store k v) k = some v := by
  unfold kvRead kvWrite
  rw [find?_append_of_none]
  · simp [List.find?_cons]
  · rw [List.find?_eq_none]
    intro e he
    have := List.of_mem_filter he
    simpa using this

theorem kvRead_write_ne (store : List (String × Spec)) (k k' : String)
    (v : Spec) (h : k' ≠ k) :
    kvRead (kvWrite store k v) k' = kvRead store k' := by
  unfold kvRead kvWrite
  have hsingle : ([((k : String), v)]).find? (fun e => e.1 == k') = none := by
    simp [List.find?_cons, List.find?_nil, Ne.symm h]
  have h1 : ((store.filter (fun e => e.1 != k)) ++ [(k, v)]).find?
      (fun e => e.1 == k') = (store.filter (fun e => e.1 != k)).find?
      (fun e => e.1 == k') := by
    induction store with
    | nil => simpa using hsingle
    | cons a t ih =>
      by_cases ha : a.1 = k
      · rw [List.filter_cons_of_neg (by simp [ha])]; exact ih
      · rw [List.filter_cons_of_pos (by simp [ha])]
        simp only [List.cons_append, List.find?_cons]
        cases hpa : (a.1 == k') <;> simp [hpa, ih]
  rw [h1, find?_filter_comm]
  intro e he
  simp only [beq_iff_eq] at he
  simp [he, h]

theorem kvRead_remove_self (store : List (String × Spec)) (k : String) :
    kvRead (kvRemove store k) k = none := by
  unfold kvRead kvRemove
  rw [List.find?_eq_none.mpr]
  · rfl
  · intro e he
    have := List.of_mem_filter he
    simpa using this

theorem kvRead_remove_ne (store : List (String × Spec)) (k k' : String)
    (h : k' ≠ k) : kvRead (kvRemove store k) k' = kvRead store k' := by
  unfold kvRead kvRemove
  rw [find?_filter_comm]
  intro e he
  simp only [beq_iff_eq] at he
  simp [he, h]

theorem fsExists_unlink_self (dq : DownloadQueue) (p : String) :
    (dq.unlinkSwallow p).fsExists p = false := by
  unfold DownloadQueue.unlinkSwallow DownloadQueue.fsExists
  simp only [List.any_eq_false]
  intro e he
  have := List.of_mem_filter he
  simpa using this

theorem fsExists_unlink_ne (dq : DownloadQueue) (p p' : String)
    (h : p' ≠ p) : (dq.unlinkSwallow p).fsExists p' = dq.fsExists p' := by
  unfold DownloadQueue.unlinkSwallow DownloadQueue.fsExists
  simp only
  rw [any_filter_comm]
  intro e he
  simp only [beq_iff_eq] at he
  simp [he, h]

end KvFsHelpers

/-- C1: refuted on the code.  `init`'s orphan cleanup filters
`dirFilenames` by comparing the whole filename (extension included) against
record ids, so the file `abc.mp3` of the live record with id `abc` — whose
filename stem equals the record id — is unlinked even though the claim (and
the code's own comment, "Delete any files that don't have a spec") says it
never is. -/
theorem initOrphanCleanup_deletes_live_spec_file :
    cSpecAbc ∈ cDqOrphan.specs ∧
    cSpecAbc.id = "abc" ∧
    (jsSplit '.' "abc.mp3").dropLast = ["abc"] ∧
    cSpecAbc.path = cDqOrphan.pathFromId "abc" "mp3" ∧
    cDqOrphan.fsExists cSpecAbc.path = true ∧
    (cDqOrphan.initOrphanCleanup ["abc.mp3"]).fsExists cSpecAbc.path = false := by
  refine ⟨by decide, rfl, by decide, rfl, rfl, by decide⟩

/-- C9: a `done` callback that fires when no record matches the captured url
(as after `removeUrl` detached the task's record) finds nothing in the lookup
and returns with no state change at all: no record mutation, no storage
write, no `onDone` event, no exception. -/
theorem taskDoneHandler_rogue_noop (dq : DownloadQueue) (url taskId : String)
    (h : ∀ s ∈ dq.specs, s.url ≠ url) :
    dq.taskDoneHandler url taskId = dq := by
  have hfind : dq.specs.find? (fun spec => spec.url == url) = none := by
    rw [List.find?_eq_none]
    intro s hs
    simpa using h s hs
  unfold DownloadQueue.taskDoneHandler
  rw [hfind]

/-- C9 witness: concrete rogue `done` callback is a no-op. -/
theorem taskDoneHandler_rogue_noop_check :
    cDqRogue.taskDoneHandler "http://gone" "dead-task" = cDqRogue :=
  taskDoneHandler_rogue_noop cDqRogue "http://gone" "dead-task" (by decide)

/-- C7: `getAvailableUrl` returns the record's local path exactly when the
record is finished and its file exists, and returns the remote url when there
is no record, the record is unfinished, or the file is missing. -/
theorem getAvailableUrl_spec (dq : DownloadQueue) (url : String) :
    (dq.specs.find? (fun s => s.url == url) = none →
      dq.getAvailableUrl url = url) ∧
    (∀ spec, dq.specs.find? (fun s => s.url == url) = some spec →
      (spec.finished = true → dq.fsExists spec.path = true →
        dq.getAvailableUrl url = spec.path) ∧
      (spec.finished = false → dq.getAvailableUrl url = url) ∧
      (dq.fsExists spec.path = false → dq.getAvailableUrl url = url)) := by
  constructor
  · intro h
    unfold DownloadQueue.getAvailableUrl
    rw [h]
  · intro spec h
    refine ⟨?_, ?_, ?_⟩
    · intro hfin hex
      unfold DownloadQueue.getAvailableUrl
      rw [h]
      simp [hfin, hex]
    · intro hfin
      unfold DownloadQueue.getAvailableUrl
      rw [h]
      simp [hfin]
    · intro hex
      unfold DownloadQueue.getAvailableUrl
      rw [h]
      cases hfin : spec.finished <;> simp [hfin, hex]

/-- C7 witness: local path for the complete record, remote url otherwise. -/
theorem getAvailableUrl_spec_check :
    cDqAvail.getAvailableUrl "http://a/x.mp3" = cSpecFin.path ∧
    emptyDQ.getAvailableUrl "http://nowhere" = "http://nowhere" := by
  constructor
  · exact ((getAvailableUrl_spec cDqAvail "http://a/x.mp3").2 cSpecFin
      (by decide)).1 (by decide) (by decide)
  · exact (getAvailableUrl_spec emptyDQ "http://nowhere").1 (by decide)

/-- C10: a lazily-deleted (`createTime <= 0`) finished record whose file is
on disk is still served by `getAvailableUrl` (its find has no `createTime`
filter), while `getStatus` for the same url at the same state is `null`. -/
theorem getAvailableUrl_includes_lazy (dq : DownloadQueue) (url : String)
    (spec : Spec)
    (hfind : dq.specs.find? (fun s => s.url == url) = some spec)
    (hlazy : spec.createTime ≤ 0)
    (hfin : spec.finished = true)
    (hex : dq.fsExists spec.path = true)
    (hall : ∀ s ∈ dq.specs, s.url = url → s.createTime ≤ 0) :
    dq.getAvailableUrl url = spec.path ∧ dq.getStatus url = none := by
  constructor
  · unfold DownloadQueue.getAvailableUrl
    rw [hfind]
    simp [hfin, hex]
  · have hnone : dq.specs.find?
        (fun s => s.url == url && decide (0 < s.createTime)) = none := by
      rw [List.find?_eq_none]
      intro s hs
      by_cases hu : s.url = url
      · have := hall s hs hu
        simp [hu, this]
      · simp [hu]
    unfold DownloadQueue.getStatus
    rw [hnone]

/-- C10 witness: the lazy record's path is served while getStatus is null. -/
theorem getAvailableUrl_includes_lazy_check :
    cDqLazy.getAvailableUrl "http://lazy/x" = cSpecLazy.path ∧
    cDqLazy.getStatus "http://lazy/x" = none :=
  getAvailableUrl_includes_lazy cDqLazy "http://lazy/x" cSpecLazy
    (by decide) (by decide) (by decide) (by decide) (by decide)

/-- C6: `getQueueStatus` has exactly one entry per active (`createTime > 0`)
record, carrying its url, path and `complete = finished && file exists`;
`getStatus` returns that same status for an active record and `null` when
every record with the url is lazily deleted or none exists. -/
theorem statusQueries_spec (dq : DownloadQueue) (url : String) :
    (dq.getQueueStatus.length =
      (dq.specs.filter (fun s => decide (0 < s.createTime))).length) ∧
    (∀ s ∈ dq.specs, 0 < s.createTime →
      ({ url := s.url, path := s.path,
         complete := s.finished && dq.fsExists s.path } : DownloadQueueStatus)
        ∈ dq.getQueueStatus) ∧
    (∀ st ∈ dq.getQueueStatus, ∃ s, s ∈ dq.specs ∧ 0 < s.createTime ∧
      st = { url := s.url, path := s.path,
             complete := s.finished && dq.fsExists s.path }) ∧
    (∀ spec, dq.specs.find?
        (fun s => s.url == url && decide (0 < s.createTime)) = some spec →
      dq.getStatus url = some { url := spec.url, path := spec.path,
                                complete := spec.finished && dq.fsExists spec.path }) ∧
    ((∀ s ∈ dq.specs, s.url = url → s.createTime ≤ 0) →
      dq.getStatus url = none) := by
  refine ⟨?_, ?_, ?_, ?_, ?_⟩
  · unfold DownloadQueue.getQueueStatus
    rw [List.length_map]
  · intro s hs hact
    unfold DownloadQueue.getQueueStatus
    exact List.mem_map_of_mem _ (List.mem_filter.mpr ⟨hs, by simpa using hact⟩)
  · intro st hst
    unfold DownloadQueue.getQueueStatus at hst
    obtain ⟨s, hs, heq⟩ := List.mem_map.mp hst
    obtain ⟨hmem, hact⟩ := List.mem_filter.mp hs
    exact ⟨s, hmem, by simpa using hact, heq.symm⟩
  · intro spec h
    unfold DownloadQueue.getStatus
    rw [h]
  · intro hall
    have hnone : dq.specs.find?
        (fun s => s.url == url && decide (0 < s.createTime)) = none := by
      rw [List.find?_eq_none]
      intro s hs
      by_cases hu : s.url = url
      · have := hall s hs hu
        simp [hu, this]
      · simp [hu]
    unfold DownloadQueue.getStatus
    rw [hnone]

/-- C6 witness: bulk status lists exactly the two active records (`complete`
only for the one whose file exists), the single-url query matches, and the
lazily-deleted record's url yields `null`. -/
theorem statusQueries_spec_check :
    cDqStatus.getQueueStatus.length = 2 ∧
    ({ url := "http://a/x.mp3", path := "Documents/DownloadQueue/main/fin-id",
       complete := true } : DownloadQueueStatus) ∈ cDqStatus.getQueueStatus ∧
    cDqStatus.getStatus "http://other" = some
      { url := "http://other", path := "Documents/DownloadQueue/main/other-id",
        complete := false } ∧
    cDqStatus.getStatus "http://lazy/x" = none := by
  refine ⟨?_, ?_, ?_, ?_⟩
  · rw [(statusQueries_spec cDqStatus "http://a/x.mp3").1]; decide
  · exact (statusQueries_spec cDqStatus "http://a/x.mp3").2.1 cSpecFin
      (by decide) (by decide)
  · exact (statusQueries_spec cDqStatus "http://other").2.2.2.1 cSpecOther
      (by decide)
  · exact (statusQueries_spec cDqStatus "http://lazy/x").2.2.2.2 (by decide)

/-- C2: adding a fresh url starts exactly one transfer and writes exactly one
persisted record, and a second `addUrl` of the same url — which finds the
active record the first call created — returns without starting a transfer,
writing to storage, or changing any state at all. -/
theorem addUrl_idempotent (dq : DownloadQueue) (url : String)
    (now now2 : Int) (id1 id2 : String)
    (hnone : ∀ s ∈ dq.specs, s.url ≠ url)
    (hnow : 0 < now) :
    ((dq.addUrl url now id1).startedLog = dq.startedLog ++ [id1]) ∧
    ((dq.addUrl url now id1).writeLog =
      dq.writeLog ++ [dq.keyFromId id1]) ∧
    (kvRead (dq.addUrl url now id1).kvfs (dq.keyFromId id1) = some
      { id := id1, url := url,
        path := dq.pathFromId id1 (dq.extensionFromUri url),
        createTime := now, finished := false }) ∧
    ((dq.addUrl url now id1).addUrl url now2 id2 = dq.addUrl url now id1) := by
  have hfind : dq.specs.find? (fun spec => spec.url == url) = none := by
    rw [List.find?_eq_none]
    intro s hs
    simpa using hnone s hs
  have hbody : dq.addUrl url now id1 =
      { dq with
          specs := dq.specs ++
            [{ id := id1, url := url,
               path := dq.pathFromId id1 (dq.extensionFromUri url),
               createTime := now, finished := false }],
          kvfs := kvWrite dq.kvfs (dq.keyFromId id1)
            { id := id1, url := url,
              path := dq.pathFromId id1 (dq.extensionFromUri url),
              createTime := now, finished := false },
          writeLog := dq.writeLog ++ [dq.keyFromId id1],
          tasks := dq.tasks ++
            [{ id := id1, url := url, paused := !dq.active }],
          startedLog := dq.startedLog ++ [id1] } := by
    unfold DownloadQueue.addUrl
    rw [hfind]
    rfl
  refine ⟨by rw [hbody], by rw [hbody], ?_, ?_⟩
  · rw [hbody]
    exact kvRead_write_self _ _ _
  · have hfind1 : List.find? (fun spec => spec.url == url)
        (dq.specs ++
          [({ id := id1, url := url,
              path := dq.pathFromId id1 (dq.extensionFromUri url),
              createTime := now, finished := false } : Spec)]) = some
        { id := id1, url := url,
          path := dq.pathFromId id1 (dq.extensionFromUri url),
          createTime := now, finished := false } := by
      rw [find?_append_of_none _ _ hfind]
      simp [List.find?_cons]
    rw [hbody]
    unfold DownloadQueue.addUrl
    dsimp only
    rw [hfind1]
    dsimp only
    rw [if_neg (by omega : ¬ (now ≤ 0))]

/-- C2 witness: concrete double-add is idempotent, with one transfer and one
persisted record from the first call. -/
theorem addUrl_idempotent_check :
    ((emptyDQ.addUrl "http://u" 5 "id-one").addUrl "http://u" 9 "id-two" =
      emptyDQ.addUrl "http://u" 5 "id-one") ∧
    (emptyDQ.addUrl "http://u" 5 "id-one").startedLog =
      emptyDQ.startedLog ++ ["id-one"] := by
  have h := addUrl_idempotent emptyDQ "http://u" 5 9 "id-one" "id-two"
    (by decide) (by decide)
  exact ⟨h.2.2.2, h.1⟩

theorem find?_updateFirst (p : Spec → Bool) (f : Spec → Spec) (l : List Spec)
    (a : Spec) (h : l.find? p = some a) (hp : p (f a) = true) :
    (updateFirst p f l).find? p = some (f a) := by
  induction l with
  | nil => simp at h
  | cons s rest ih =>
    cases hps : p s with
    | true =>
      rw [List.find?_cons_of_pos _ hps] at h
      injection h with h
      subst h
      unfold updateFirst
      rw [if_pos hps, List.find?_cons_of_pos _ hp]
    | false =>
      rw [List.find?_cons_of_neg _ (by simp [hps])] at h
      unfold updateFirst
      rw [if_neg (by simp [hps]), List.find?_cons_of_neg _ (by simp [hps])]
      exact ih h

theorem fsStat_isSome_of_fsExists (dq : DownloadQueue) (p : String)
    (h : dq.fsExists p = true) : ∃ n, dq.fsStat p = some n := by
  unfold DownloadQueue.fsExists at h
  unfold DownloadQueue.fsStat
  rw [List.any_eq_true] at h
  obtain ⟨e, he, hpe⟩ := h
  have : (dq.fs.find? (fun f => f.1 == p)).isSome := by
    rw [List.find?_isSome]
    exact ⟨e, he, hpe⟩
  obtain ⟨e', he'⟩ := Option.isSome_iff_exists.mp this
  exact ⟨e'.2, by rw [he']; rfl⟩

/-- C3: adding a url whose record is lazily deleted (`createTime <= 0`)
revives it: `createTime` becomes `now` and the revived record is persisted;
then a transfer is started when the record is unfinished or its file is
missing, and otherwise no transfer is started and `onBegin` plus `onDone` are
synthesized for that url. -/
theorem addUrl_revives_lazy (dq : DownloadQueue) (url : String) (now : Int)
    (freshId : String) (spec : Spec)
    (hfind : dq.specs.find? (fun s => s.url == url) = some spec)
    (hlazy : spec.createTime ≤ 0)
    (hpath : spec.path = dq.pathFromId spec.id (dq.extensionFromUri spec.url)) :
    ((dq.addUrl url now freshId).specs.find? (fun s => s.url == url) =
      some { spec with createTime := now }) ∧
    (kvRead (dq.addUrl url now freshId).kvfs (dq.keyFromId spec.id) =
      some { spec with createTime := now }) ∧
    ((spec.finished = false ∨ dq.fsExists spec.path = false) →
      (dq.addUrl url now freshId).startedLog = dq.startedLog ++ [spec.id] ∧
      (dq.addUrl url now freshId).events = dq.events) ∧
    (spec.finished = true → dq.fsExists spec.path = true →
      (dq.addUrl url now freshId).startedLog = dq.startedLog ∧
      ∃ n, dq.fsStat spec.path = some n ∧
        (dq.addUrl url now freshId).events =
          dq.events ++ [Event.onBegin spec.url n,
                        Event.onDone spec.url spec.path]) := by
  have hurl : spec.url = url := by
    have := List.find?_some hfind
    simpa using this
  subst hurl
  have hp : ((fun s => s.url == spec.url)
      ({ spec with createTime := now } : Spec)) = true := by simp
  unfold DownloadQueue.addUrl
  rw [hfind]
  dsimp only
  rw [if_pos hlazy]
  simp only [DownloadQueue.kvfsWrite, DownloadQueue.start, DownloadQueue.addTask,
    DownloadQueue.emit, DownloadQueue.fsExists, DownloadQueue.fsStat,
    DownloadQueue.pathFromId, DownloadQueue.getDomainedBasePath,
    DownloadQueue.extensionFromUri, DownloadQueue.keyFromId]
  simp only [DownloadQueue.pathFromId, DownloadQueue.getDomainedBasePath,
    DownloadQueue.extensionFromUri] at hpath
  rw [← hpath]
  refine ⟨?_, ?_, ?_, ?_⟩
  · split
    · exact find?_updateFirst (fun s => s.url == spec.url)
        (fun s => { s with createTime := now }) dq.specs spec hfind hp
    · split
      · exact find?_updateFirst (fun s => s.url == spec.url)
          (fun s => { s with createTime := now }) dq.specs spec hfind hp
      · exact find?_updateFirst (fun s => s.url == spec.url)
          (fun s => { s with createTime := now }) dq.specs spec hfind hp
  · split
    · exact kvRead_write_self _ _ _
    · split
      · exact kvRead_write_self _ _ _
      · exact kvRead_write_self _ _ _
  · intro hOr
    have hC : (!spec.finished || !dq.fs.any fun f => f.1 == spec.path) = true := by
      rcases hOr with h | h <;> simp [h]
    rw [if_pos hC]
    exact ⟨rfl, rfl⟩
  · intro hfin hfe
    rw [if_neg (by simp [hfin, hfe] :
      ¬ (!spec.finished || !dq.fs.any fun f => f.1 == spec.path) = true)]
    obtain ⟨n, hn⟩ := fsStat_isSome_of_fsExists dq spec.path hfe
    have hn' := hn
    simp only [DownloadQueue.fsStat] at hn'
    rw [hn']
    exact ⟨rfl, n, rfl, by simp⟩

/-- C3 witness: reviving the lazily-deleted finished record whose file exists
persists `createTime = 50` and synthesizes begin+done without a transfer. -/
theorem addUrl_revives_lazy_check :
    ((cDqLazy.addUrl "http://lazy/x" 50 "unused-id").specs.find?
        (fun s => s.url == "http://lazy/x") =
      some { cSpecLazy with createTime := 50 }) ∧
    (cDqLazy.addUrl "http://lazy/x" 50 "unused-id").startedLog =
      cDqLazy.startedLog ∧
    (cDqLazy.addUrl "http://lazy/x" 50 "unused-id").events =
      cDqLazy.events ++ [Event.onBegin cSpecLazy.url 8,
                         Event.onDone cSpecLazy.url cSpecLazy.path] := by
  have h := addUrl_revives_lazy cDqLazy "http://lazy/x" 50 "unused-id" cSpecLazy
    (by decide) (by decide) (by decide)
  obtain ⟨hlog, n, hn, hev⟩ := h.2.2.2 (by decide) (by decide)
  have h8 : cDqLazy.fsStat cSpecLazy.path = some 8 := by decide
  rw [h8] at hn
  injection hn with hn8
  subst hn8
  exact ⟨h.1, hlog, hev⟩

theorem pauseAllInternal_fields (dq : DownloadQueue) :
    (dq.pauseAllInternal).wouldAutoPause = dq.wouldAutoPause ∧
    (dq.pauseAllInternal).active = false ∧
    (dq.pauseAllInternal).tasks =
      dq.tasks.map (fun t => { t with paused := true }) ∧
    (dq.pauseAllInternal).isPausedByUser = dq.isPausedByUser := by
  exact ⟨rfl, rfl, rfl, rfl⟩

theorem resumeAllInternal_fields (dq : DownloadQueue) :
    (dq.resumeAllInternal).wouldAutoPause = dq.wouldAutoPause ∧
    (dq.resumeAllInternal).active = true ∧
    (dq.resumeAllInternal).tasks =
      dq.tasks.map (fun t => { t with paused := false }) ∧
    (dq.resumeAllInternal).isPausedByUser = dq.isPausedByUser := by
  unfold DownloadQueue.resumeAllInternal DownloadQueue.ensureErrorTimerOn
  dsimp only
  split
  · split <;> exact ⟨rfl, rfl, rfl, rfl⟩
  · exact ⟨rfl, rfl, rfl, rfl⟩

/-- C8: every connectivity event recomputes `wouldAutoPause` as
`!connected || (allowlist nonempty && type not allowed)`; an unchanged value
touches nothing; a changed value pauses or resumes every task unless the user
has explicitly paused, in which case only the flag is stored; and `resumeAll`
clears the user-pause flag but only resumes when `wouldAutoPause` is false. -/
theorem network_arbitration (dq : DownloadQueue)
    (st : DownloadQueueNetInfoState) :
    ((dq.onNetInfoChanged st).wouldAutoPause = dq.shouldAutoPause st) ∧
    (dq.shouldAutoPause st = dq.wouldAutoPause →
      dq.onNetInfoChanged st = dq) ∧
    (dq.shouldAutoPause st ≠ dq.wouldAutoPause → dq.isPausedByUser = true →
      dq.onNetInfoChanged st =
        { dq with wouldAutoPause := dq.shouldAutoPause st }) ∧
    (dq.shouldAutoPause st ≠ dq.wouldAutoPause → dq.isPausedByUser = false →
      dq.shouldAutoPause st = true →
      ((dq.onNetInfoChanged st).active = false ∧
        ∀ t ∈ (dq.onNetInfoChanged st).tasks, t.paused = true)) ∧
    (dq.shouldAutoPause st ≠ dq.wouldAutoPause → dq.isPausedByUser = false →
      dq.shouldAutoPause st = false →
      ((dq.onNetInfoChanged st).active = true ∧
        ∀ t ∈ (dq.onNetInfoChanged st).tasks, t.paused = false)) ∧
    ((dq.resumeAll).isPausedByUser = false) ∧
    (dq.wouldAutoPause = true →
      dq.resumeAll = { dq with isPausedByUser := false }) ∧
    (dq.wouldAutoPause = false →
      ((dq.resumeAll).active = true ∧
        ∀ t ∈ (dq.resumeAll).tasks, t.paused = false)) := by
  have honc : ∀ h : dq.shouldAutoPause st ≠ dq.wouldAutoPause,
      dq.onNetInfoChanged st =
        (if dq.isPausedByUser = false then
          (if dq.shouldAutoPause st then
            ({ dq with wouldAutoPause := dq.shouldAutoPause st } :
              DownloadQueue).pauseAllInternal
          else
            ({ dq with wouldAutoPause := dq.shouldAutoPause st } :
              DownloadQueue).resumeAllInternal)
        else { dq with wouldAutoPause := dq.shouldAutoPause st }) := by
    intro h
    unfold DownloadQueue.onNetInfoChanged
    rw [if_neg (by simp [h])]
    dsimp only
    by_cases hu : dq.isPausedByUser = false
    · rw [if_pos (by simp [hu]), if_pos hu]
    · rw [if_neg (by simp at hu ⊢; simp [hu]), if_neg hu]
  refine ⟨?_, ?_, ?_, ?_, ?_, ?_, ?_, ?_⟩
  · by_cases heq : dq.shouldAutoPause st = dq.wouldAutoPause
    · unfold DownloadQueue.onNetInfoChanged
      rw [if_pos (by simp [heq])]
      exact heq.symm
    · rw [honc heq]
      by_cases hu : dq.isPausedByUser = false
      · rw [if_pos hu]
        by_cases hs : dq.shouldAutoPause st = true
        · rw [if_pos hs]
          exact (pauseAllInternal_fields _).1
        · rw [if_neg hs]
          exact (resumeAllInternal_fields _).1
      · rw [if_neg hu]
  · intro heq
    unfold DownloadQueue.onNetInfoChanged
    rw [if_pos (by simp [heq])]
  · intro hne hu
    rw [honc hne, if_neg (by simp [hu])]
  · intro hne hu hs
    rw [honc hne, if_pos hu, if_pos hs]
    refine ⟨(pauseAllInternal_fields _).2.1, ?_⟩
    intro t ht
    rw [(pauseAllInternal_fields _).2.2.1] at ht
    obtain ⟨t0, _, rfl⟩ := List.mem_map.mp ht
    rfl
  · intro hne hu hs
    rw [honc hne, if_pos hu, if_neg (by simp [hs])]
    refine ⟨(resumeAllInternal_fields _).2.1, ?_⟩
    intro t ht
    rw [(resumeAllInternal_fields _).2.2.1] at ht
    obtain ⟨t0, _, rfl⟩ := List.mem_map.mp ht
    rfl
  · unfold DownloadQueue.resumeAll
    dsimp only
    split
    · exact (resumeAllInternal_fields _).2.2.2
    · rfl
  · intro hw
    unfold DownloadQueue.resumeAll
    dsimp only
    rw [if_neg (by simp [hw])]
  · intro hw
    unfold DownloadQueue.resumeAll
    dsimp only
    rw [if_pos (by simp [hw])]
    refine ⟨(resumeAllInternal_fields _).2.1, ?_⟩
    intro t ht
    rw [(resumeAllInternal_fields _).2.2.1] at ht
    obtain ⟨t0, _, rfl⟩ := List.mem_map.mp ht
    rfl

/-- C8 witness: connected-but-cellular under a wifi-only allowlist flips
`wouldAutoPause` on and pauses the running task; `resumeAll` clears the
user-pause flag. -/
theorem network_arbitration_check :
    (cDqNet.onNetInfoChanged cStCell).wouldAutoPause = true ∧
    (cDqNet.onNetInfoChanged cStCell).active = false ∧
    (∀ t ∈ (cDqNet.onNetInfoChanged cStCell).tasks, t.paused = true) ∧
    (cDqNet.resumeAll).isPausedByUser = false := by
  have h := network_arbitration cDqNet cStCell
  have h4 := h.2.2.2.1 (by decide) (by decide) (by decide)
  have h1 : cDqNet.shouldAutoPause cStCell = true := by decide
  exact ⟨by rw [h.1, h1], h4.1, h4.2, h.2.2.2.2.2.1⟩

theorem ne_of_mem_removeFirst (g : Spec → String) (p : Spec → Bool)
    (l : List Spec) (a : Spec) (hnd : (l.map g).Nodup)
    (hfind : l.find? p = some a) :
    ∀ b ∈ removeFirst p l, g b ≠ g a := by
  induction l with
  | nil => simp at hfind
  | cons s rest ih =>
    rw [List.map_cons, List.nodup_cons] at hnd
    cases hps : p s with
    | true =>
      rw [List.find?_cons_of_pos _ hps] at hfind
      injection hfind with hfind
      subst hfind
      unfold removeFirst
      rw [if_pos hps]
      intro b hb hgb
      exact hnd.1 (hgb ▸ List.mem_map_of_mem g hb)
    | false =>
      rw [List.find?_cons_of_neg _ (by simp [hps])] at hfind
      unfold removeFirst
      rw [if_neg (by simp [hps])]
      intro b hb
      rcases List.mem_cons.mp hb with hb | hb
      · subst hb
        intro hgb
        exact hnd.1 (hgb ▸ List.mem_map_of_mem g
          (List.mem_of_find?_eq_some hfind))
      · exact ih hnd.2 hfind b hb

/-- C4: `removeUrl` on an unknown url is a no-op; with negative `deleteTime`
it removes the persisted record and the in-memory record and best-effort
unlinks the file without throwing; with `deleteTime >= 0` it only rewrites
`createTime` to `-deleteTime`, persists that, leaves the filesystem untouched
and schedules a deletion wake-up exactly when `deleteTime > 0`. -/
theorem removeUrl_semantics (dq : DownloadQueue) (url : String)
    (deleteTime now : Int) :
    ((∀ s ∈ dq.specs, s.url ≠ url) → dq.removeUrl url deleteTime now = dq) ∧
    (∀ spec, dq.specs.find? (fun s => s.url == url) = some spec →
      (dq.specs.map (·.id)).Nodup →
      (deleteTime < 0 →
        (∀ s ∈ (dq.removeUrl url deleteTime now).specs, s.id ≠ spec.id) ∧
        kvRead (dq.removeUrl url deleteTime now).kvfs
          (dq.keyFromId spec.id) = none ∧
        (dq.removeUrl url deleteTime now).fsExists spec.path = false ∧
        (dq.removeUrl url deleteTime now).threw = dq.threw) ∧
      (0 ≤ deleteTime →
        ((dq.removeUrl url deleteTime now).specs.find?
            (fun s => s.url == url) =
          some { spec with createTime := -deleteTime }) ∧
        kvRead (dq.removeUrl url deleteTime now).kvfs
          (dq.keyFromId spec.id) =
          some { spec with createTime := -deleteTime } ∧
        (dq.removeUrl url deleteTime now).fs = dq.fs ∧
        (0 < deleteTime →
          (dq.removeUrl url deleteTime now).timerWakeUps =
            dq.timerWakeUps ++ [roundToNextMinute deleteTime]) ∧
        (deleteTime = 0 →
          (dq.removeUrl url deleteTime now).timerWakeUps =
            dq.timerWakeUps))) := by
  constructor
  · intro h
    have hfind : dq.specs.find? (fun s => s.url == url) = none := by
      rw [List.find?_eq_none]
      intro s hs
      simpa using h s hs
    unfold DownloadQueue.removeUrl DownloadQueue.removeUrlInternal
    rw [hfind]
  · intro spec hfind hnd
    have hurl : spec.url = url := by
      have := List.find?_some hfind
      simpa using this
    subst hurl
    have hp : ((fun s => s.url == spec.url)
        ({ spec with createTime := -deleteTime } : Spec)) = true := by simp
    unfold DownloadQueue.removeUrl DownloadQueue.removeUrlInternal
    rw [hfind]
    dsimp only
    simp only [DownloadQueue.emit, DownloadQueue.removeTask,
      DownloadQueue.kvfsWrite, DownloadQueue.kvfsRm, DownloadQueue.keyFromId,
      DownloadQueue.scheduleDeletions, DownloadQueue.unlinkSwallow,
      DownloadQueue.fsExists]
    constructor
    · intro hdt
      rw [if_neg (by omega : ¬ (0 ≤ deleteTime))]
      refine ⟨?_, ?_, ?_, rfl⟩
      · exact ne_of_mem_removeFirst (·.id) _ _ _ hnd hfind
      · exact kvRead_remove_self _ _
      · have := fsExists_unlink_self
          { dq with
              events := dq.events ++ [Event.onWillRemove spec.url],
              tasks := match dq.tasks.findIdx? (fun t => t.id == spec.id) with
                | some i => dq.tasks.eraseIdx i
                | none => dq.tasks,
              erroredIds := dq.erroredIds.filter (fun e => e != spec.id),
              errorTimer := if (dq.erroredIds.filter
                  (fun e => e != spec.id)).isEmpty then false
                else dq.errorTimer,
              kvfs := kvRemove dq.kvfs ("/" ++ dq.domain ++ "/" ++ spec.id),
              specs := removeFirst (fun s => s.url == spec.url) dq.specs }
          spec.path
        simpa [DownloadQueue.unlinkSwallow, DownloadQueue.fsExists,
          kvRemove] using this
    · intro hdt
      rw [if_pos hdt]
      by_cases hpos : 0 < deleteTime
      · rw [if_pos (by simp [hpos])]
        refine ⟨?_, ?_, rfl, ?_, ?_⟩
        · exact find?_updateFirst _ _ _ _ hfind hp
        · exact kvRead_write_self _ _ _
        · intro _
          simp [roundToNextMinute]
        · intro h0
          omega
      · rw [if_neg (by simp [hpos])]
        refine ⟨?_, ?_, rfl, ?_, ?_⟩
        · exact find?_updateFirst _ _ _ _ hfind hp
        · exact kvRead_write_self _ _ _
        · intro h
          exact absurd h hpos
        · intro _
          rfl

/-- C4 witness: unknown url is a no-op; eager removal erases record, storage
entry and file; `deleteTime = 60001` schedules one wake-up at the next whole
minute (120000); `deleteTime = 0` schedules nothing. -/
theorem removeUrl_semantics_check :
    cDqAvail.removeUrl "http://none" (-1) 100 = cDqAvail ∧
    kvRead (cDqAvail.removeUrl "http://a/x.mp3" (-1) 100).kvfs
      (cDqAvail.keyFromId "fin-id") = none ∧
    (cDqAvail.removeUrl "http://a/x.mp3" (-1) 100).fsExists
      cSpecFin.path = false ∧
    (cDqAvail.removeUrl "http://a/x.mp3" 60001 100).timerWakeUps = [120000] ∧
    (cDqAvail.removeUrl "http://a/x.mp3" 0 100).timerWakeUps = [] := by
  have h1 := (removeUrl_semantics cDqAvail "http://none" (-1) 100).1
    (by decide)
  have h2 := (removeUrl_semantics cDqAvail "http://a/x.mp3" (-1) 100).2
    cSpecFin (by decide) (by decide)
  have h3 := (removeUrl_semantics cDqAvail "http://a/x.mp3" 60001 100).2
    cSpecFin (by decide) (by decide)
  have h4 := (removeUrl_semantics cDqAvail "http://a/x.mp3" 0 100).2
    cSpecFin (by decide) (by decide)
  refine ⟨h1, (h2.1 (by decide)).2.1, (h2.1 (by decide)).2.2.1, ?_, ?_⟩
  · rw [(h3.2 (by decide)).2.2.2.1 (by decide)]
    decide
  · rw [(h4.2 (by decide)).2.2.2.2 (by decide)]
    rfl

section SetQueueHelpers

theorem mem_updateFirst_of_not {p : Spec → Bool} {f : Spec → Spec}
    {l : List Spec} {a : Spec} (ha : a ∈ l) (hpa : p a = false) :
    a ∈ updateFirst p f l := by
  induction l with
  | nil => simp at ha
  | cons s rest ih =>
    unfold updateFirst
    rcases List.mem_cons.mp ha with h | h
    · subst h
      rw [if_neg (by simp [hpa])]
      exact List.mem_cons_self _ _
    · by_cases hps : p s = true
      · rw [if_pos hps]
        exact List.mem_cons_of_mem _ h
      · rw [if_neg hps]
        exact List.mem_cons_of_mem _ (ih h)

theorem of_mem_updateFirst {p : Spec → Bool} {f : Spec → Spec}
    {l : List Spec} {b : Spec} (hb : b ∈ updateFirst p f l) :
    b ∈ l ∨ ∃ a, a ∈ l ∧ p a = true ∧ b = f a := by
  induction l with
  | nil => simp [updateFirst] at hb
  | cons s rest ih =>
    unfold updateFirst at hb
    by_cases hps : p s = true
    · rw [if_pos hps] at hb
      rcases List.mem_cons.mp hb with h | h
      · exact Or.inr ⟨s, List.mem_cons_self _ _, hps, h⟩
      · exact Or.inl (List.mem_cons_of_mem _ h)
    · rw [if_neg hps] at hb
      rcases List.mem_cons.mp hb with h | h
      · exact Or.inl (h ▸ List.mem_cons_self _ _)
      · rcases ih h with h' | ⟨a, ha, hpa, hba⟩
        · exact Or.inl (List.mem_cons_of_mem _ h')
        · exact Or.inr ⟨a, List.mem_cons_of_mem _ ha, hpa, hba⟩

theorem of_mem_removeFirst {p : Spec → Bool} {l : List Spec} {b : Spec}
    (hb : b ∈ removeFirst p l) : b ∈ l := by
  induction l with
  | nil => simpa [removeFirst] using hb
  | cons s rest ih =>
    unfold removeFirst at hb
    by_cases hps : p s = true
    · rw [if_pos hps] at hb
      exact List.mem_cons_of_mem _ hb
    · rw [if_neg hps] at hb
      rcases List.mem_cons.mp hb with h | h
      · exact h ▸ List.mem_cons_self _ _
      · exact List.mem_cons_of_mem _ (ih h)

theorem mem_removeFirst_of_not {p : Spec → Bool} {l : List Spec} {a : Spec}
    (ha : a ∈ l) (hpa : p a = false) : a ∈ removeFirst p l := by
  induction l with
  | nil => simp at ha
  | cons s rest ih =>
    unfold removeFirst
    rcases List.mem_cons.mp ha with h | h
    · subst h
      rw [if_neg (by simp [hpa])]
      exact List.mem_cons_self _ _
    · by_cases hps : p s = true
      · rw [if_pos hps]
        exact h
      · rw [if_neg hps]
        exact List.mem_cons_of_mem _ (ih h)

theorem countP_updateFirst (p : Spec → Bool) (f : Spec → Spec)
    (q : Spec → Bool) (l : List Spec) (hq : ∀ x, q (f x) = q x) :
    (updateFirst p f l).countP q = l.countP q := by
  induction l with
  | nil => rfl
  | cons s rest ih =>
    unfold updateFirst
    by_cases hps : p s = true
    · rw [if_pos hps, List.countP_cons, List.countP_cons, hq]
    · rw [if_neg hps, List.countP_cons, List.countP_cons, ih]

theorem countP_removeFirst_not (p : Spec → Bool) (q : Spec → Bool)
    (l : List Spec) (a : Spec) (hfind : l.find? p = some a)
    (hqa : q a = false) : (removeFirst p l).countP q = l.countP q := by
  induction l with
  | nil => simp at hfind
  | cons s rest ih =>
    unfold removeFirst
    by_cases hps : p s = true
    · rw [List.find?_cons_of_pos _ hps] at hfind
      injection hfind with hfind
      subst hfind
      rw [if_pos hps, List.countP_cons, hqa]
      simp
    · rw [List.find?_cons_of_neg _ hps] at hfind
      rw [if_neg hps, List.countP_cons, List.countP_cons, ih hfind]

theorem countP_removeFirst_found (p : Spec → Bool) (q : Spec → Bool)
    (l : List Spec) (a : Spec) (hfind : l.find? p = some a)
    (hqa : q a = true) : (removeFirst p l).countP q + 1 = l.countP q := by
  induction l with
  | nil => simp at hfind
  | cons s rest ih =>
    unfold removeFirst
    by_cases hps : p s = true
    · rw [List.find?_cons_of_pos _ hps] at hfind
      injection hfind with hfind
      subst hfind
      rw [if_pos hps, List.countP_cons, hqa]
      simp
    · rw [List.find?_cons_of_neg _ hps] at hfind
      rw [if_neg hps, List.countP_cons, List.countP_cons, ← ih hfind]
      omega

theorem eq_of_countP_eq_one {q : Spec → Bool} {l : List Spec} {a b : Spec}
    (h1 : l.countP q = 1) (ha : a ∈ l) (hb : b ∈ l) (hqa : q a = true)
    (hqb : q b = true) : a = b := by
  induction l with
  | nil => simp at ha
  | cons s rest ih =>
    rw [List.countP_cons] at h1
    by_cases hqs : q s = true
    · rw [if_pos hqs] at h1
      have hz : rest.countP q = 0 := by omega
      have hnone := List.countP_eq_zero.mp hz
      have ha' : a = s := by
        rcases List.mem_cons.mp ha with h | h
        · exact h
        · exact absurd hqa (hnone a h)
      have hb' : b = s := by
        rcases List.mem_cons.mp hb with h | h
        · exact h
        · exact absurd hqb (hnone b h)
      rw [ha', hb']
    · rw [if_neg hqs] at h1
      simp only [Nat.add_zero] at h1
      have ha' : a ∈ rest := by
        rcases List.mem_cons.mp ha with h | h
        · exact absurd (h ▸ hqa) hqs
        · exact h
      have hb' : b ∈ rest := by
        rcases List.mem_cons.mp hb with h | h
        · exact absurd (h ▸ hqb) hqs
        · exact h
      exact ih h1 ha' hb'

theorem countP_eq_one_of_nodup_map (g : Spec → String) {l : List Spec}
    {a : Spec} (hnd : (l.map g).Nodup) (ha : a ∈ l) :
    l.countP (fun x => g x == g a) = 1 := by
  induction l with
  | nil => simp at ha
  | cons s rest ih =>
    rw [List.map_cons, List.nodup_cons] at hnd
    rw [List.countP_cons]
    rcases List.mem_cons.mp ha with h | h
    · rw [h]
      have hz : rest.countP (fun x => g x == g s) = 0 := by
        rw [List.countP_eq_zero]
        intro x hx
        simp only [beq_iff_eq]
        intro hgx
        exact hnd.1 (hgx ▸ List.mem_map_of_mem g hx)
      rw [hz]
      simp
    · have hgs : (g s == g a) = false := by
        simp only [beq_eq_false_iff_ne, ne_eq]
        intro hgs
        exact hnd.1 (hgs ▸ List.mem_map_of_mem g h)
      rw [ih hnd.2 h, hgs]
      simp

theorem find?_eq_some_of_unique {p : Spec → Bool} {l : List Spec} {a : Spec}
    (ha : a ∈ l) (hpa : p a = true)
    (huniq : ∀ b ∈ l, p b = true → b = a) : l.find? p = some a := by
  induction l with
  | nil => simp at ha
  | cons s rest ih =>
    by_cases hps : p s = true
    · rw [List.find?_cons_of_pos _ hps]
      rw [huniq s (List.mem_cons_self _ _) hps]
    · rw [List.find?_cons_of_neg _ hps]
      have ha' : a ∈ rest := by
        rcases List.mem_cons.mp ha with h | h
        · exact absurd (h ▸ hpa) hps
        · exact h
      exact ih ha' (fun b hb => huniq b (List.mem_cons_of_mem _ hb))

theorem keyFromId_inj {d x y : String}
    (h : "/" ++ d ++ "/" ++ x = "/" ++ d ++ "/" ++ y) : x = y := by
  have hd := congrArg String.data h
  simp only [String.data_append] at hd
  have := List.append_cancel_left hd
  exact String.ext this

end SetQueueHelpers

/-- Frame facts of `addUrl`: it never touches the filesystem, the deletion
timers, or the domain. -/
theorem addUrl_frame (dq : DownloadQueue) (url : String) (now : Int)
    (fid : String) :
    (dq.addUrl url now fid).fs = dq.fs ∧
    (dq.addUrl url now fid).timerWakeUps = dq.timerWakeUps ∧
    (dq.addUrl url now fid).domain = dq.domain := by
  unfold DownloadQueue.addUrl
  split
  · split
    · dsimp only
      split
      · exact ⟨rfl, rfl, rfl⟩
      · split <;> exact ⟨rfl, rfl, rfl⟩
    · exact ⟨rfl, rfl, rfl⟩
  · exact ⟨rfl, rfl, rfl⟩

/-- Frame facts of `removeUrlInternal` with batched scheduling turned off (as
`setQueue` calls it): deletion timers and domain are untouched. -/
theorem removeUrlInternal_frame (dq : DownloadQueue) (u : String)
    (dt now : Int) :
    (dq.removeUrlInternal u dt false now).timerWakeUps = dq.timerWakeUps ∧
    (dq.removeUrlInternal u dt false now).domain = dq.domain := by
  unfold DownloadQueue.removeUrlInternal
  split
  · exact ⟨rfl, rfl⟩
  · dsimp only
    split
    · exact ⟨rfl, rfl⟩
    · exact ⟨rfl, rfl⟩

theorem fsExists_unlink_false (dq : DownloadQueue) (x y : String)
    (h : dq.fsExists x = false) :
    (dq.unlinkSwallow y).fsExists x = false := by
  unfold DownloadQueue.fsExists at h
  unfold DownloadQueue.unlinkSwallow DownloadQueue.fsExists
  rw [List.any_eq_false] at h ⊢
  intro e he
  exact h e (List.mem_of_mem_filter he)

theorem shieldR_removeStep {dom : String} {p : Spec} {k : Option Spec}
    {fb : Bool} {st : DownloadQueue} {u : String} {dt now : Int}
    (hS : ShieldR dom p k fb st) (hu : u ≠ p.url) :
    ShieldR dom p k fb (st.removeUrlInternal u dt false now) := by
  obtain ⟨hdom, hmem, h3, hcnt, hkv, hfs⟩ := hS
  unfold DownloadQueue.removeUrlInternal
  cases hfind : st.specs.find? (fun s => s.url == u) with
  | none => exact ⟨hdom, hmem, h3, hcnt, hkv, hfs⟩
  | some q =>
    have hqu : q.url = u := by simpa using List.find?_some hfind
    have hqmem : q ∈ st.specs := List.mem_of_find?_eq_some hfind
    have hqne : q ≠ p := fun h => hu (by rw [← hqu, h])
    have hqid : q.id ≠ p.id := fun h => hqne (h3 q hqmem (Or.inl h))
    have hqpath : q.path ≠ p.path :=
      fun h => hqne (h3 q hqmem (Or.inr (Or.inr h)))
    have hkey : ("/" ++ dom ++ "/" ++ p.id) ≠ ("/" ++ dom ++ "/" ++ q.id) :=
      fun hh => hqid ((keyFromId_inj hh).symm)
    have hppred : ((fun s => s.url == u) p) = false := by
      simp only [beq_eq_false_iff_ne, ne_eq]
      exact fun h => hu h.symm
    dsimp only
    simp only [DownloadQueue.emit, DownloadQueue.removeTask,
      DownloadQueue.kvfsWrite, DownloadQueue.kvfsRm, DownloadQueue.keyFromId,
      DownloadQueue.unlinkSwallow, DownloadQueue.scheduleDeletions]
    by_cases hdt : 0 ≤ dt
    · rw [if_pos hdt, Bool.false_and, if_neg (by simp : ¬ (false = true))]
      refine ⟨hdom, ?_, ?_, ?_, ?_, hfs⟩
      · exact mem_updateFirst_of_not hmem hppred
      · intro s hs hmatch
        rcases of_mem_updateFirst hs with hs' | ⟨a, haa, hpa, rfl⟩
        · exact h3 s hs' hmatch
        · have hau : a.url = u := by simpa using hpa
          have hap : a = p := h3 a haa hmatch
          exact absurd (hap ▸ hau).symm hu
      · exact (countP_updateFirst (fun s => s.url == u)
          (fun s => { s with createTime := -dt })
          (fun s => s.id == p.id) st.specs (fun x => rfl)).trans hcnt
      · rw [hdom]
        exact (kvRead_write_ne _ _ _ _ hkey).trans hkv
    · rw [if_neg hdt]
      refine ⟨hdom, ?_, ?_, ?_, ?_, ?_⟩
      · exact mem_removeFirst_of_not hmem hppred
      · intro s hs hmatch
        exact h3 s (of_mem_removeFirst hs) hmatch
      · exact (countP_removeFirst_not _ _ _ _ hfind (by simp [hqid])).trans hcnt
      · rw [hdom]
        exact (kvRead_remove_ne _ _ _ hkey).trans hkv
      · exact (fsExists_unlink_ne _ _ _ (Ne.symm hqpath)).trans hfs

theorem gone_removeStep {dom : String} {p : Spec} {st : DownloadQueue}
    {u : String} {dt now : Int} (hG : Gone dom p st) :
    Gone dom p (st.removeUrlInternal u dt false now) := by
  obtain ⟨hdom, hids, hkv, hfs⟩ := hG
  unfold DownloadQueue.removeUrlInternal
  cases hfind : st.specs.find? (fun s => s.url == u) with
  | none => exact ⟨hdom, hids, hkv, hfs⟩
  | some q =>
    have hqmem : q ∈ st.specs := List.mem_of_find?_eq_some hfind
    have hqid : q.id ≠ p.id := (hids q hqmem).1
    have hkey : ("/" ++ dom ++ "/" ++ p.id) ≠ ("/" ++ dom ++ "/" ++ q.id) :=
      fun hh => hqid ((keyFromId_inj hh).symm)
    dsimp only
    simp only [DownloadQueue.emit, DownloadQueue.removeTask,
      DownloadQueue.kvfsWrite, DownloadQueue.kvfsRm, DownloadQueue.keyFromId,
      DownloadQueue.unlinkSwallow, DownloadQueue.scheduleDeletions]
    by_cases hdt : 0 ≤ dt
    · rw [if_pos hdt, Bool.false_and, if_neg (by simp : ¬ (false = true))]
      refine ⟨hdom, ?_, ?_, hfs⟩
      · intro s hs
        rcases of_mem_updateFirst hs with hs' | ⟨a, haa, hpa, rfl⟩
        · exact hids s hs'
        · exact hids a haa
      · rw [hdom]
        exact (kvRead_write_ne _ _ _ _ hkey).trans hkv
    · rw [if_neg hdt]
      refine ⟨hdom, ?_, ?_, ?_⟩
      · intro s hs
        exact hids s (of_mem_removeFirst hs)
      · rw [hdom]
        exact (kvRead_remove_ne _ _ _ hkey).trans hkv
      · exact fsExists_unlink_false _ _ _ hfs

theorem mem_or_image_updateFirst {p : Spec → Bool} {f : Spec → Spec}
    {l : List Spec} {a : Spec} (ha : a ∈ l) :
    a ∈ updateFirst p f l ∨ f a ∈ updateFirst p f l := by
  induction l with
  | nil => simp at ha
  | cons s rest ih =>
    unfold updateFirst
    by_cases hps : p s = true
    · rw [if_pos hps]
      rcases List.mem_cons.mp ha with h | h
      · exact Or.inr (h ▸ List.mem_cons_self _ _)
      · exact Or.inl (List.mem_cons_of_mem _ h)
    · rw [if_neg hps]
      rcases List.mem_cons.mp ha with h | h
      · exact Or.inl (h ▸ List.mem_cons_self _ _)
      · rcases ih h with h' | h'
        · exact Or.inl (List.mem_cons_of_mem _ h')
        · exact Or.inr (List.mem_cons_of_mem _ h')

theorem shieldR_removeStep_self {dom : String} {p : Spec} {k : Option Spec}
    {fb : Bool} {st : DownloadQueue} {dt now : Int}
    (hS : ShieldR dom p k fb st) :
    (dt < 0 → Gone dom p (st.removeUrlInternal p.url dt false now)) ∧
    (0 ≤ dt → ShieldR dom { p with createTime := -dt }
      (some { p with createTime := -dt }) fb
      (st.removeUrlInternal p.url dt false now)) := by
  obtain ⟨hdom, hmem, h3, hcnt, hkv, hfs⟩ := hS
  have hfind : st.specs.find? (fun s => s.url == p.url) = some p :=
    find?_eq_some_of_unique hmem (by simp)
      (fun b hb hpb => h3 b hb (Or.inr (Or.inl (by simpa using hpb))))
  unfold DownloadQueue.removeUrlInternal
  rw [hfind]
  dsimp only
  simp only [DownloadQueue.emit, DownloadQueue.removeTask,
    DownloadQueue.kvfsWrite, DownloadQueue.kvfsRm, DownloadQueue.keyFromId,
    DownloadQueue.unlinkSwallow, DownloadQueue.scheduleDeletions]
  constructor
  · intro hdt
    rw [if_neg (by omega : ¬ (0 ≤ dt))]
    have hz : (removeFirst (fun s => s.url == p.url) st.specs).countP
        (fun s => s.id == p.id) = 0 := by
      have := countP_removeFirst_found (fun s => s.url == p.url)
        (fun s => s.id == p.id) st.specs p hfind (by simp)
      omega
    have hzero := List.countP_eq_zero.mp hz
    refine ⟨hdom, ?_, ?_, ?_⟩
    · intro s hs
      constructor
      · intro hid
        exact absurd (by simpa using hid :
          ((fun s => s.id == p.id) s) = true) (hzero s hs)
      · intro hurl
        have hsp : s = p := h3 s (of_mem_removeFirst hs) (Or.inr (Or.inl hurl))
        exact absurd (by simp [hsp] : ((fun s => s.id == p.id) s) = true)
          (hzero s hs)
    · rw [hdom]
      exact kvRead_remove_self _ _
    · exact fsExists_unlink_self _ _
  · intro hdt
    rw [if_pos hdt, Bool.false_and, if_neg (by simp : ¬ (false = true))]
    have hp' : ((fun s => s.url == p.url)
        ({ p with createTime := -dt } : Spec)) = true := by simp
    have hmem' : ({ p with createTime := -dt } : Spec) ∈
        updateFirst (fun s => s.url == p.url)
          (fun s => { s with createTime := -dt }) st.specs :=
      List.mem_of_find?_eq_some (find?_updateFirst _ _ _ _ hfind hp')
    have hcnt' : (updateFirst (fun s => s.url == p.url)
        (fun s => { s with createTime := -dt }) st.specs).countP
        (fun s => s.id == p.id) = 1 :=
      (countP_updateFirst (fun s => s.url == p.url)
        (fun s => { s with createTime := -dt })
        (fun s => s.id == p.id) st.specs (fun x => rfl)).trans hcnt
    refine ⟨hdom, hmem', ?_, hcnt', ?_, hfs⟩
    · intro s hs hmatch
      rcases of_mem_updateFirst hs with hs' | ⟨a, haa, hpa, rfl⟩
      · have hsp : s = p := h3 s hs' hmatch
        exact eq_of_countP_eq_one hcnt' hs hmem' (by simp [hsp]) (by simp)
      · have hap : a = p := h3 a haa (Or.inr (Or.inl (by simpa using hpa)))
        rw [hap]
    · rw [hdom]
      exact kvRead_write_self _ _ _

theorem shieldA_addStep {dom : String} {p : Spec} {k : Option Spec}
    {st : DownloadQueue} {u : String} {now : Int} {fid : String}
    (hS : ShieldA dom p k st) (hu : u ≠ p.url) (hfid : fid ≠ p.id) :
    ShieldA dom p k (st.addUrl u now fid) := by
  obtain ⟨hdom, hmem, h3, hkv⟩ := hS
  have hdomF := (addUrl_frame st u now fid).2.2
  have hppred : ((fun s => s.url == u) p) = false := by
    simp only [beq_eq_false_iff_ne, ne_eq]
    exact fun h => hu h.symm
  unfold DownloadQueue.addUrl
  cases hfind : st.specs.find? (fun spec => spec.url == u) with
  | none =>
    dsimp only
    simp only [DownloadQueue.kvfsWrite, DownloadQueue.start,
      DownloadQueue.addTask, DownloadQueue.keyFromId]
    have hkey : ("/" ++ dom ++ "/" ++ p.id) ≠ ("/" ++ dom ++ "/" ++ fid) :=
      fun hh => hfid ((keyFromId_inj hh).symm)
    refine ⟨hdom, List.mem_append_left _ hmem, ?_, ?_⟩
    · intro s hs hmatch
      rcases List.mem_append.mp hs with hs' | hs'
      · exact h3 s hs' hmatch
      · have hseq : s = ({ id := fid, url := u, path := st.pathFromId fid (st.extensionFromUri u), createTime := now, finished := false } : Spec) := by simpa using hs'
        rcases hmatch with hm | hm
        · rw [hseq] at hm
          exact absurd hm hfid
        · rw [hseq] at hm
          exact absurd hm hu
    · rw [hdom]
      exact (kvRead_write_ne _ _ _ _ hkey).trans hkv
  | some q =>
    have hqu : q.url = u := by simpa using List.find?_some hfind
    have hqmem : q ∈ st.specs := List.mem_of_find?_eq_some hfind
    have hqne : q ≠ p := fun h => hu (by rw [← hqu, h])
    have hqid : q.id ≠ p.id := fun h => hqne (h3 q hqmem (Or.inl h))
    have hkey : ("/" ++ dom ++ "/" ++ p.id) ≠ ("/" ++ dom ++ "/" ++ q.id) :=
      fun hh => hqid ((keyFromId_inj hh).symm)
    dsimp only
    split
    · have hclause : ∀ s ∈ updateFirst (fun spec => spec.url == u)
          (fun s => { s with createTime := now }) st.specs,
          (s.id = p.id ∨ s.url = p.url) → s = p := by
        intro s hs hmatch
        rcases of_mem_updateFirst hs with hs' | ⟨a, haa, hpa, rfl⟩
        · exact h3 s hs' hmatch
        · have hau : a.url = u := by simpa using hpa
          have hap : a = p := h3 a haa hmatch
          exact absurd (hap ▸ hau).symm hu
      have hmem2 := @mem_updateFirst_of_not (fun s => s.url == u)
        (fun s => { s with createTime := now }) st.specs p hmem hppred
      simp only [DownloadQueue.kvfsWrite, DownloadQueue.start,
        DownloadQueue.addTask, DownloadQueue.emit, DownloadQueue.keyFromId]
      split
      · exact ⟨hdom, hmem2, hclause,
          by rw [hdom]; exact (kvRead_write_ne _ _ _ _ hkey).trans hkv⟩
      · split
        · exact ⟨hdom, hmem2, hclause,
            by rw [hdom]; exact (kvRead_write_ne _ _ _ _ hkey).trans hkv⟩
        · exact ⟨hdom, hmem2, hclause,
            by rw [hdom]; exact (kvRead_write_ne _ _ _ _ hkey).trans hkv⟩
    · exact ⟨hdom, hmem, h3, hkv⟩

theorem gone_addStep {dom : String} {p : Spec} {st : DownloadQueue}
    {u : String} {now : Int} {fid : String}
    (hG : Gone dom p st) (hu : u ≠ p.url) (hfid : fid ≠ p.id) :
    Gone dom p (st.addUrl u now fid) := by
  obtain ⟨hdom, hids, hkv, hfs⟩ := hG
  unfold DownloadQueue.addUrl
  cases hfind : st.specs.find? (fun spec => spec.url == u) with
  | none =>
    dsimp only
    simp only [DownloadQueue.kvfsWrite, DownloadQueue.start,
      DownloadQueue.addTask, DownloadQueue.keyFromId]
    have hkey : ("/" ++ dom ++ "/" ++ p.id) ≠ ("/" ++ dom ++ "/" ++ fid) :=
      fun hh => hfid ((keyFromId_inj hh).symm)
    refine ⟨hdom, ?_, ?_, hfs⟩
    · intro s hs
      rcases List.mem_append.mp hs with hs' | hs'
      · exact hids s hs'
      · have hseq : s = ({ id := fid, url := u, path := st.pathFromId fid (st.extensionFromUri u), createTime := now, finished := false } : Spec) := by simpa using hs'
        rw [hseq]
        exact ⟨fun h => hfid h, fun h => hu h⟩
    · rw [hdom]
      exact (kvRead_write_ne _ _ _ _ hkey).trans hkv
  | some q =>
    have hqmem : q ∈ st.specs := List.mem_of_find?_eq_some hfind
    have hqid : q.id ≠ p.id := (hids q hqmem).1
    have hkey : ("/" ++ dom ++ "/" ++ p.id) ≠ ("/" ++ dom ++ "/" ++ q.id) :=
      fun hh => hqid ((keyFromId_inj hh).symm)
    have hclause : ∀ s ∈ updateFirst (fun spec => spec.url == u)
        (fun s => { s with createTime := now }) st.specs,
        s.id ≠ p.id ∧ s.url ≠ p.url := by
      intro s hs
      rcases of_mem_updateFirst hs with hs' | ⟨a, haa, hpa, rfl⟩
      · exact hids s hs'
      · exact hids a haa
    dsimp only
    split
    · simp only [DownloadQueue.kvfsWrite, DownloadQueue.start,
        DownloadQueue.addTask, DownloadQueue.emit, DownloadQueue.keyFromId]
      split
      · exact ⟨hdom, hclause,
          by rw [hdom]; exact (kvRead_write_ne _ _ _ _ hkey).trans hkv, hfs⟩
      · split
        · exact ⟨hdom, hclause,
            by rw [hdom]; exact (kvRead_write_ne _ _ _ _ hkey).trans hkv, hfs⟩
        · exact ⟨hdom, hclause,
            by rw [hdom]; exact (kvRead_write_ne _ _ _ _ hkey).trans hkv, hfs⟩
    · exact ⟨hdom, hids, hkv, hfs⟩

theorem removeFold_shieldR {dom : String} {p : Spec} {k : Option Spec}
    {fb : Bool} {dt now : Int} :
    ∀ (us : List String) (st : DownloadQueue), (∀ u ∈ us, u ≠ p.url) →
      ShieldR dom p k fb st →
      ShieldR dom p k fb (DownloadQueue.removeFold dt now us st)
  | [], st, _, hS => hS
  | u :: rest, st, hus, hS =>
    removeFold_shieldR rest _
      (fun v hv => hus v (List.mem_cons_of_mem _ hv))
      (shieldR_removeStep hS (hus u (List.mem_cons_self _ _)))

theorem removeFold_gone {dom : String} {p : Spec} {dt now : Int} :
    ∀ (us : List String) (st : DownloadQueue), Gone dom p st →
      Gone dom p (DownloadQueue.removeFold dt now us st)
  | [], _, hG => hG
  | _ :: rest, _, hG => removeFold_gone rest _ (gone_removeStep hG)

theorem removeFold_append (dt now : Int) :
    ∀ (a b : List String) (st : DownloadQueue),
      DownloadQueue.removeFold dt now (a ++ b) st =
      DownloadQueue.removeFold dt now b
        (DownloadQueue.removeFold dt now a st)
  | [], _, _ => rfl
  | _ :: rest, b, st => removeFold_append dt now rest b _

theorem addFold_shieldA {dom : String} {p : Spec} {k : Option Spec}
    {now : Int} {freshIds : Nat → String}
    (hfid : ∀ j, freshIds j ≠ p.id) :
    ∀ (us : List String) (i : Nat) (st : DownloadQueue),
      (∀ u ∈ us, u ≠ p.url) → ShieldA dom p k st →
      ShieldA dom p k (DownloadQueue.addFold freshIds now i us st)
  | [], _, _, _, hS => hS
  | u :: rest, i, st, hus, hS =>
    addFold_shieldA hfid rest (i + 1) _
      (fun v hv => hus v (List.mem_cons_of_mem _ hv))
      (shieldA_addStep hS (hus u (List.mem_cons_self _ _)) (hfid i))

theorem addFold_gone {dom : String} {p : Spec} {now : Int}
    {freshIds : Nat → String} (hfid : ∀ j, freshIds j ≠ p.id) :
    ∀ (us : List String) (i : Nat) (st : DownloadQueue),
      (∀ u ∈ us, u ≠ p.url) → Gone dom p st →
      Gone dom p (DownloadQueue.addFold freshIds now i us st)
  | [], _, _, _, hG => hG
  | u :: rest, i, st, hus, hG =>
    addFold_gone hfid rest (i + 1) _
      (fun v hv => hus v (List.mem_cons_of_mem _ hv))
      (gone_addStep hG (hus u (List.mem_cons_self _ _)) (hfid i))

theorem addFold_fs {now : Int} {freshIds : Nat → String} :
    ∀ (us : List String) (i : Nat) (st : DownloadQueue),
      (DownloadQueue.addFold freshIds now i us st).fs = st.fs
  | [], _, _ => rfl
  | u :: rest, i, st =>
    (addFold_fs rest (i + 1) _).trans (addUrl_frame st u now (freshIds i)).1

theorem addFold_timers {now : Int} {freshIds : Nat → String} :
    ∀ (us : List String) (i : Nat) (st : DownloadQueue),
      (DownloadQueue.addFold freshIds now i us st).timerWakeUps =
        st.timerWakeUps
  | [], _, _ => rfl
  | u :: rest, i, st =>
    (addFold_timers rest (i + 1) _).trans
      (addUrl_frame st u now (freshIds i)).2.1

theorem addUrl_active_estab (st : DownloadQueue) (u : String) (now : Int)
    (fid : String) (hnow : 0 < now) :
    ∃ s ∈ (st.addUrl u now fid).specs, s.url = u ∧ 0 < s.createTime := by
  unfold DownloadQueue.addUrl
  cases hfind : st.specs.find? (fun spec => spec.url == u) with
  | none =>
    dsimp only
    simp only [DownloadQueue.kvfsWrite, DownloadQueue.start,
      DownloadQueue.addTask]
    exact ⟨_, List.mem_append_right _ (List.mem_singleton.mpr rfl),
      rfl, hnow⟩
  | some q =>
    have hqu : q.url = u := by simpa using List.find?_some hfind
    have hqmem : q ∈ st.specs := List.mem_of_find?_eq_some hfind
    dsimp only
    split
    · have hp' : ((fun spec => spec.url == u)
          ({ q with createTime := now } : Spec)) = true := by simp [hqu]
      have hmem' := List.mem_of_find?_eq_some
        (find?_updateFirst _ (fun s => { s with createTime := now })
          st.specs q hfind hp')
      simp only [DownloadQueue.kvfsWrite, DownloadQueue.start,
        DownloadQueue.addTask, DownloadQueue.emit]
      split
      · exact ⟨_, hmem', hqu, hnow⟩
      · split
        · exact ⟨_, hmem', hqu, hnow⟩
        · exact ⟨_, hmem', hqu, hnow⟩
    · rename_i hct
      exact ⟨q, hqmem, hqu, by omega⟩

theorem addUrl_active_pres (st : DownloadQueue) (v u : String) (now : Int)
    (fid : String) (hnow : 0 < now)
    (h : ∃ s ∈ st.specs, s.url = u ∧ 0 < s.createTime) :
    ∃ s ∈ (st.addUrl v now fid).specs, s.url = u ∧ 0 < s.createTime := by
  obtain ⟨w, hw, hwu, hwa⟩ := h
  unfold DownloadQueue.addUrl
  cases hfind : st.specs.find? (fun spec => spec.url == v) with
  | none =>
    dsimp only
    simp only [DownloadQueue.kvfsWrite, DownloadQueue.start,
      DownloadQueue.addTask]
    exact ⟨w, List.mem_append_left _ hw, hwu, hwa⟩
  | some q =>
    dsimp only
    split
    · have hcase := @mem_or_image_updateFirst (fun spec => spec.url == v)
        (fun s => { s with createTime := now }) st.specs w hw
      have hwit : ∃ s ∈ updateFirst (fun spec => spec.url == v)
          (fun s => { s with createTime := now }) st.specs,
          s.url = u ∧ 0 < s.createTime := by
        rcases hcase with hc | hc
        · exact ⟨w, hc, hwu, hwa⟩
        · exact ⟨_, hc, hwu, hnow⟩
      simp only [DownloadQueue.kvfsWrite, DownloadQueue.start,
        DownloadQueue.addTask, DownloadQueue.emit]
      split
      · exact hwit
      · split
        · exact hwit
        · exact hwit
    · exact ⟨w, hw, hwu, hwa⟩

theorem addFold_active_pres {now : Int} {freshIds : Nat → String} {u : String}
    (hnow : 0 < now) :
    ∀ (us : List String) (i : Nat) (st : DownloadQueue),
      (∃ s ∈ st.specs, s.url = u ∧ 0 < s.createTime) →
      ∃ s ∈ (DownloadQueue.addFold freshIds now i us st).specs,
        s.url = u ∧ 0 < s.createTime
  | [], _, _, h => h
  | v :: rest, i, st, h =>
    addFold_active_pres hnow rest (i + 1) _
      (addUrl_active_pres st v u now (freshIds i) hnow h)

theorem addFold_active_estab {now : Int} {freshIds : Nat → String}
    {u : String} (hnow : 0 < now) :
    ∀ (us : List String) (i : Nat) (st : DownloadQueue), u ∈ us →
      ∃ s ∈ (DownloadQueue.addFold freshIds now i us st).specs,
        s.url = u ∧ 0 < s.createTime := by
  intro us
  induction us with
  | nil => intro i st h; simp at h
  | cons v rest ih =>
    intro i st hmem
    by_cases hvu : v = u
    · subst hvu
      exact addFold_active_pres hnow rest (i + 1) _
        (addUrl_active_estab st v now (freshIds i) hnow)
    · rcases List.mem_cons.mp hmem with h | h
      · exact absurd h.symm hvu
      · exact ih (i + 1) _ h

theorem scheduleDeletions_mem (st : DownloadQueue) (toDelete : List Spec)
    (basis : Int) (x : Spec) (hx : x ∈ toDelete) :
    roundToNextMinute (-x.createTime) ∈
      (st.scheduleDeletions toDelete basis).timerWakeUps := by
  unfold DownloadQueue.scheduleDeletions
  dsimp only
  rw [List.mem_append]
  right
  have hgen : ∀ (l : List Spec) (acc : List Int),
      (roundToNextMinute (-x.createTime) ∈ acc ∨ x ∈ l) →
      roundToNextMinute (-x.createTime) ∈ l.foldl
        (fun acc spec =>
          if acc.contains (roundToNextMinute (-spec.createTime)) then acc
          else acc ++ [roundToNextMinute (-spec.createTime)]) acc := by
    intro l
    induction l with
    | nil =>
      intro acc h
      rcases h with h | h
      · exact h
      · simp at h
    | cons s rest ih =>
      intro acc h
      show roundToNextMinute (-x.createTime) ∈ List.foldl _
        (if acc.contains (roundToNextMinute (-s.createTime)) then acc
         else acc ++ [roundToNextMinute (-s.createTime)]) rest
      rcases h with h | h
      · apply ih
        left
        split
        · exact h
        · exact List.mem_append_left _ h
      · rcases List.mem_cons.mp h with h | h
        · apply ih
          left
          rw [h]
          split
          · rename_i hc
            simpa using hc
          · exact List.mem_append_right _ (List.mem_singleton.mpr rfl)
        · exact ih _ (Or.inr h)
  exact hgen toDelete [] (Or.inr hx)

theorem removeFold_timers {dt now : Int} :
    ∀ (us : List String) (st : DownloadQueue),
      (DownloadQueue.removeFold dt now us st).timerWakeUps =
        st.timerWakeUps
  | [], _ => rfl
  | u :: rest, st =>
    (removeFold_timers rest _).trans
      (removeUrlInternal_frame st u dt now).1

theorem shieldR_sched {dom : String} {p : Spec} {k : Option Spec} {fb : Bool}
    {st : DownloadQueue} (h : ShieldR dom p k fb st) (l : List Spec)
    (b : Int) : ShieldR dom p k fb (st.scheduleDeletions l b) := h

theorem gone_sched {dom : String} {p : Spec} {st : DownloadQueue}
    (h : Gone dom p st) (l : List Spec) (b : Int) :
    Gone dom p (st.scheduleDeletions l b) := h

theorem shieldR_weaken {dom : String} {p : Spec} {k : Option Spec} {fb : Bool}
    {st : DownloadQueue} (h : ShieldR dom p k fb st) : ShieldA dom p k st :=
  ⟨h.1, h.2.1,
    fun s hs hm => h.2.2.1 s hs
      (by rcases hm with hm | hm
          · exact Or.inl hm
          · exact Or.inr (Or.inl hm)),
    h.2.2.2.2.1⟩

/-- C5: `setQueue` leaves lazily-deleted records whose url is outside the new
set completely undisturbed (record value, persisted entry, file), leaves
active records inside the set untouched, removes active records outside the
set per the `deleteTime` semantics with batched wake-up scheduling, and ends
with an active record for every url of the new set. -/
theorem setQueue_reconcile (dq : DownloadQueue) (urls : List String)
    (deleteTime now : Int) (freshIds : Nat → String)
    (hids : (dq.specs.map (·.id)).Nodup)
    (hurls : (dq.specs.map (·.url)).Nodup)
    (hpaths : (dq.specs.map (·.path)).Nodup)
    (hfresh : ∀ i, ∀ s ∈ dq.specs, freshIds i ≠ s.id)
    (hnow : 0 < now) :
    (∀ spec ∈ dq.specs, spec.createTime ≤ 0 → spec.url ∉ urls →
      spec ∈ (dq.setQueue urls deleteTime now freshIds).specs ∧
      kvRead (dq.setQueue urls deleteTime now freshIds).kvfs
        (dq.keyFromId spec.id) = kvRead dq.kvfs (dq.keyFromId spec.id) ∧
      (dq.setQueue urls deleteTime now freshIds).fsExists spec.path =
        dq.fsExists spec.path) ∧
    (∀ spec ∈ dq.specs, 0 < spec.createTime → spec.url ∈ urls →
      spec ∈ (dq.setQueue urls deleteTime now freshIds).specs ∧
      kvRead (dq.setQueue urls deleteTime now freshIds).kvfs
        (dq.keyFromId spec.id) = kvRead dq.kvfs (dq.keyFromId spec.id) ∧
      (dq.setQueue urls deleteTime now freshIds).fsExists spec.path =
        dq.fsExists spec.path) ∧
    (∀ spec ∈ dq.specs, 0 < spec.createTime → spec.url ∉ urls →
      (deleteTime < 0 →
        (∀ s ∈ (dq.setQueue urls deleteTime now freshIds).specs,
          s.id ≠ spec.id ∧ s.url ≠ spec.url) ∧
        kvRead (dq.setQueue urls deleteTime now freshIds).kvfs
          (dq.keyFromId spec.id) = none ∧
        (dq.setQueue urls deleteTime now freshIds).fsExists spec.path =
          false) ∧
      (0 ≤ deleteTime →
        { spec with createTime := -deleteTime } ∈
          (dq.setQueue urls deleteTime now freshIds).specs ∧
        kvRead (dq.setQueue urls deleteTime now freshIds).kvfs
          (dq.keyFromId spec.id) =
          some { spec with createTime := -deleteTime } ∧
        (dq.setQueue urls deleteTime now freshIds).fsExists spec.path =
          dq.fsExists spec.path ∧
        (0 < deleteTime → roundToNextMinute deleteTime ∈
          (dq.setQueue urls deleteTime now freshIds).timerWakeUps))) ∧
    (∀ u ∈ urls, (∀ s ∈ dq.specs, s.url = u → s.createTime ≤ 0) →
      ∃ s ∈ (dq.setQueue urls deleteTime now freshIds).specs,
        s.url = u ∧ 0 < s.createTime) := by
  have hinj_url : ∀ x ∈ dq.specs, ∀ y ∈ dq.specs, x.url = y.url → x = y :=
    fun x hx y hy h => List.inj_on_of_nodup_map hurls hx hy h
  refine ⟨?_, ?_, ?_, ?_⟩
  · -- (a) lazily-deleted records outside the set are untouched
    intro spec hmem hlazy hnot
    have h3 : ∀ s ∈ dq.specs,
        (s.id = spec.id ∨ s.url = spec.url ∨ s.path = spec.path) →
        s = spec := by
      intro s hs hm
      rcases hm with h | h | h
      · exact List.inj_on_of_nodup_map hids hs hmem h
      · exact List.inj_on_of_nodup_map hurls hs hmem h
      · exact List.inj_on_of_nodup_map hpaths hs hmem h
    have S0 : ShieldR dq.domain spec
        (kvRead dq.kvfs ("/" ++ dq.domain ++ "/" ++ spec.id))
        (dq.fsExists spec.path) dq :=
      ⟨rfl, hmem, h3, countP_eq_one_of_nodup_map (·.id) hids hmem, rfl, rfl⟩
    have hrem : ∀ u ∈ (dq.specs.filter (fun s =>
        !urls.contains s.url && decide (0 < s.createTime))).map (·.url),
        u ≠ spec.url := by
      intro u hu he
      obtain ⟨s', hs', hs'u⟩ := List.mem_map.mp hu
      obtain ⟨hs'm, hcond⟩ := List.mem_filter.mp hs'
      have hse : s' = spec := hinj_url s' hs'm spec hmem (hs'u.trans he)
      rw [Bool.and_eq_true] at hcond
      have : (0:Int) < s'.createTime := by simpa using hcond.2
      rw [hse] at this
      omega
    have S1 := @removeFold_shieldR dq.domain spec _ _ deleteTime now _ dq
      hrem S0
    have hadd : ∀ u ∈ urls.filter (fun url =>
        !((dq.specs.filter (fun spec => decide (0 < spec.createTime))).map
          (·.url)).contains url), u ≠ spec.url := by
      intro u hu he
      exact hnot (he ▸ (List.mem_filter.mp hu).1)
    have SF := @addFold_shieldA dq.domain spec _ now freshIds
      (fun j => hfresh j spec hmem) _ 0 _ hadd
      (shieldR_weaken (shieldR_sched S1
        ((dq.specs.filter (fun s =>
          !urls.contains s.url && decide (0 < s.createTime))).map
          (fun s => if 0 ≤ deleteTime
            then { s with createTime := -deleteTime } else s)) now))
    refine ⟨SF.2.1, SF.2.2.2, ?_⟩
    have hfs1 : (dq.setQueue urls deleteTime now freshIds).fs =
        (DownloadQueue.removeFold deleteTime now
          ((dq.specs.filter (fun s =>
            !urls.contains s.url && decide (0 < s.createTime))).map (·.url))
          dq).fs := addFold_fs _ _ _
    calc (dq.setQueue urls deleteTime now freshIds).fsExists spec.path
        = (DownloadQueue.removeFold deleteTime now
            ((dq.specs.filter (fun s =>
              !urls.contains s.url && decide (0 < s.createTime))).map
              (·.url)) dq).fsExists spec.path := by
          unfold DownloadQueue.fsExists
          rw [hfs1]
      _ = dq.fsExists spec.path := S1.2.2.2.2.2
  · -- (b) active records inside the set are untouched
    intro spec hmem hact hin
    have h3 : ∀ s ∈ dq.specs,
        (s.id = spec.id ∨ s.url = spec.url ∨ s.path = spec.path) →
        s = spec := by
      intro s hs hm
      rcases hm with h | h | h
      · exact List.inj_on_of_nodup_map hids hs hmem h
      · exact List.inj_on_of_nodup_map hurls hs hmem h
      · exact List.inj_on_of_nodup_map hpaths hs hmem h
    have S0 : ShieldR dq.domain spec
        (kvRead dq.kvfs ("/" ++ dq.domain ++ "/" ++ spec.id))
        (dq.fsExists spec.path) dq :=
      ⟨rfl, hmem, h3, countP_eq_one_of_nodup_map (·.id) hids hmem, rfl, rfl⟩
    have hrem : ∀ u ∈ (dq.specs.filter (fun s =>
        !urls.contains s.url && decide (0 < s.createTime))).map (·.url),
        u ≠ spec.url := by
      intro u hu he
      obtain ⟨s', hs', hs'u⟩ := List.mem_map.mp hu
      obtain ⟨hs'm, hcond⟩ := List.mem_filter.mp hs'
      have hse : s' = spec := hinj_url s' hs'm spec hmem (hs'u.trans he)
      rw [Bool.and_eq_true] at hcond
      have hcf : urls.contains s'.url = false := by simpa using hcond.1
      rw [hse] at hcf
      have : urls.contains spec.url = true := by simpa using hin
      rw [this] at hcf
      exact absurd hcf (by simp)
    have S1 := @removeFold_shieldR dq.domain spec _ _ deleteTime now _ dq
      hrem S0
    have hadd : ∀ u ∈ urls.filter (fun url =>
        !((dq.specs.filter (fun spec => decide (0 < spec.createTime))).map
          (·.url)).contains url), u ≠ spec.url := by
      intro u hu he
      have hcl := (List.mem_filter.mp hu).2
      have hlm : spec.url ∈ (dq.specs.filter
          (fun spec => decide (0 < spec.createTime))).map (·.url) :=
        List.mem_map_of_mem _ (List.mem_filter.mpr ⟨hmem, by simpa using hact⟩)
      rw [he] at hcl
      have : ((dq.specs.filter (fun spec => decide (0 < spec.createTime))).map
          (·.url)).contains spec.url = true := by simpa using hlm
      rw [this] at hcl
      exact absurd hcl (by simp)
    have SF := @addFold_shieldA dq.domain spec _ now freshIds
      (fun j => hfresh j spec hmem) _ 0 _ hadd
      (shieldR_weaken (shieldR_sched S1
        ((dq.specs.filter (fun s =>
          !urls.contains s.url && decide (0 < s.createTime))).map
          (fun s => if 0 ≤ deleteTime
            then { s with createTime := -deleteTime } else s)) now))
    refine ⟨SF.2.1, SF.2.2.2, ?_⟩
    have hfs1 : (dq.setQueue urls deleteTime now freshIds).fs =
        (DownloadQueue.removeFold deleteTime now
          ((dq.specs.filter (fun s =>
            !urls.contains s.url && decide (0 < s.createTime))).map (·.url))
          dq).fs := addFold_fs _ _ _
    calc (dq.setQueue urls deleteTime now freshIds).fsExists spec.path
        = (DownloadQueue.removeFold deleteTime now
            ((dq.specs.filter (fun s =>
              !urls.contains s.url && decide (0 < s.createTime))).map
              (·.url)) dq).fsExists spec.path := by
          unfold DownloadQueue.fsExists
          rw [hfs1]
      _ = dq.fsExists spec.path := S1.2.2.2.2.2
  · -- (c) active records outside the set are removed per deleteTime
    intro spec hmem hact hnot
    set remSpecs := dq.specs.filter
      (fun s => !urls.contains s.url && decide (0 < s.createTime))
      with hremSpecs
    set remNow := remSpecs.map
      (fun s => if 0 ≤ deleteTime
        then { s with createTime := -deleteTime } else s) with hremNow
    set addUrls := urls.filter (fun url =>
      !((dq.specs.filter (fun spec => decide (0 < spec.createTime))).map
        (·.url)).contains url) with haddUrls
    have h3 : ∀ s ∈ dq.specs,
        (s.id = spec.id ∨ s.url = spec.url ∨ s.path = spec.path) →
        s = spec := by
      intro s hs hm
      rcases hm with h | h | h
      · exact List.inj_on_of_nodup_map hids hs hmem h
      · exact List.inj_on_of_nodup_map hurls hs hmem h
      · exact List.inj_on_of_nodup_map hpaths hs hmem h
    have S0 : ShieldR dq.domain spec
        (kvRead dq.kvfs ("/" ++ dq.domain ++ "/" ++ spec.id))
        (dq.fsExists spec.path) dq :=
      ⟨rfl, hmem, h3, countP_eq_one_of_nodup_map (·.id) hids hmem, rfl, rfl⟩
    have hucont : urls.contains spec.url = false := by
      cases h : urls.contains spec.url
      · rfl
      · exact absurd (by simpa using h) hnot
    have hcond : (!urls.contains spec.url &&
        decide (0 < spec.createTime)) = true := by
      rw [Bool.and_eq_true, hucont]
      exact ⟨rfl, by simpa using hact⟩
    have hmemRem : spec ∈ remSpecs := List.mem_filter.mpr ⟨hmem, hcond⟩
    have huRem : spec.url ∈ remSpecs.map (·.url) :=
      List.mem_map_of_mem _ hmemRem
    have hndRem : (remSpecs.map (·.url)).Nodup :=
      List.Sublist.nodup (List.Sublist.map _ (List.filter_sublist _)) hurls
    obtain ⟨us1, us2, hsplit⟩ := List.append_of_mem huRem
    rw [hsplit] at hndRem
    have hndRem' := List.nodup_middle.mp hndRem
    rw [List.nodup_cons] at hndRem'
    have hus1 : ∀ u ∈ us1, u ≠ spec.url :=
      fun u hu he => hndRem'.1 (List.mem_append_left _ (he ▸ hu))
    have hus2 : ∀ u ∈ us2, u ≠ spec.url :=
      fun u hu he => hndRem'.1 (List.mem_append_right _ (he ▸ hu))
    have S1 := @removeFold_shieldR dq.domain spec _ _ deleteTime now us1 dq
      hus1 S0
    have hstep := @shieldR_removeStep_self dq.domain spec _ _ _ deleteTime
      now S1
    have hfold : DownloadQueue.removeFold deleteTime now
        (remSpecs.map (·.url)) dq =
        DownloadQueue.removeFold deleteTime now us2
          ((DownloadQueue.removeFold deleteTime now us1 dq).removeUrlInternal
            spec.url deleteTime false now) := by
      rw [hsplit, removeFold_append]
      rfl
    have haddok : ∀ u ∈ addUrls, u ≠ spec.url :=
      fun u hu he => hnot (he ▸ (List.mem_filter.mp hu).1)
    constructor
    · intro hdt
      have G1 := hstep.1 hdt
      have G2 := @removeFold_gone dq.domain spec deleteTime now us2 _ G1
      have G3 : Gone dq.domain spec (DownloadQueue.removeFold deleteTime now
          (remSpecs.map (·.url)) dq) := by
        rw [hfold]
        exact G2
      have GF := @addFold_gone dq.domain spec now freshIds
        (fun j => hfresh j spec hmem) addUrls 0 _ haddok
        (gone_sched G3 remNow now)
      exact ⟨GF.2.1, GF.2.2.1, GF.2.2.2⟩
    · intro hdt
      have S' := hstep.2 hdt
      have hus2' : ∀ u ∈ us2,
          u ≠ ({ spec with createTime := -deleteTime } : Spec).url := hus2
      have S2 := @removeFold_shieldR dq.domain
        ({ spec with createTime := -deleteTime } : Spec) _ _ deleteTime now
        us2 _ hus2' S'
      have S3 : ShieldR dq.domain ({ spec with createTime := -deleteTime })
          (some { spec with createTime := -deleteTime })
          (dq.fsExists spec.path)
          (DownloadQueue.removeFold deleteTime now
            (remSpecs.map (·.url)) dq) := by
        rw [hfold]
        exact S2
      have haddok' : ∀ u ∈ addUrls,
          u ≠ ({ spec with createTime := -deleteTime } : Spec).url := haddok
      have hfresh' : ∀ j, freshIds j ≠
          ({ spec with createTime := -deleteTime } : Spec).id :=
        fun j => hfresh j spec hmem
      have SF := @addFold_shieldA dq.domain
        ({ spec with createTime := -deleteTime } : Spec) _ now freshIds
        hfresh' addUrls 0 _ haddok'
        (shieldR_weaken (shieldR_sched S3 remNow now))
      refine ⟨SF.2.1, SF.2.2.2, ?_, ?_⟩
      · have hfs1 : (dq.setQueue urls deleteTime now freshIds).fs =
            (DownloadQueue.removeFold deleteTime now
              (remSpecs.map (·.url)) dq).fs := addFold_fs _ _ _
        calc (dq.setQueue urls deleteTime now freshIds).fsExists spec.path
            = (DownloadQueue.removeFold deleteTime now
                (remSpecs.map (·.url)) dq).fsExists spec.path := by
              unfold DownloadQueue.fsExists
              rw [hfs1]
          _ = dq.fsExists spec.path := S3.2.2.2.2.2
      · intro hpos
        have hmemR : ({ spec with createTime := -deleteTime } : Spec) ∈
            remNow := by
          rw [hremNow]
          refine List.mem_map.mpr ⟨spec, hmemRem, ?_⟩
          rw [if_pos hdt]
        have hmemT := scheduleDeletions_mem
          (DownloadQueue.removeFold deleteTime now
            (remSpecs.map (·.url)) dq) remNow now _ hmemR
        have htimers : (dq.setQueue urls deleteTime now
            freshIds).timerWakeUps =
            ((DownloadQueue.removeFold deleteTime now
              (remSpecs.map (·.url)) dq).scheduleDeletions remNow
              now).timerWakeUps := addFold_timers _ _ _
        rw [htimers]
        have hw : roundToNextMinute
            (-({ spec with createTime := -deleteTime } : Spec).createTime) =
            roundToNextMinute deleteTime := by
          show roundToNextMinute (-(-deleteTime)) = roundToNextMinute deleteTime
          rw [neg_neg]
        rw [← hw]
        exact hmemT
  · -- (d) every url of the set ends with an active record
    intro u hu hnone
    have hlive : ((dq.specs.filter
        (fun spec => decide (0 < spec.createTime))).map (·.url)).contains u
        = false := by
      by_contra hc
      have hm : u ∈ (dq.specs.filter
          (fun spec => decide (0 < spec.createTime))).map (·.url) := by
        have : ((dq.specs.filter
            (fun spec => decide (0 < spec.createTime))).map
            (·.url)).contains u = true := by
          cases h : ((dq.specs.filter
              (fun spec => decide (0 < spec.createTime))).map
              (·.url)).contains u
          · exact absurd h hc
          · rfl
        simpa using this
      obtain ⟨s', hs', hs'u⟩ := List.mem_map.mp hm
      obtain ⟨hsm, hsact⟩ := List.mem_filter.mp hs'
      have h1 := hnone s' hsm hs'u
      have h2 : (0:Int) < s'.createTime := by simpa using hsact
      omega
    have hToAdd : u ∈ urls.filter (fun url =>
        !((dq.specs.filter (fun spec => decide (0 < spec.createTime))).map
          (·.url)).contains url) :=
      List.mem_filter.mpr ⟨hu, by rw [hlive]; rfl⟩
    exact addFold_active_estab hnow _ 0 _ hToAdd

/-- C5 witness: the lazily-deleted outsider and the active insider survive
untouched, the active outsider is eagerly removed (record, storage entry and
file), and the new url ends with an active record. -/
theorem setQueue_reconcile_check :
    cSpecLazy ∈ (cDqSet.setQueue cUrls (-1) 100 cFresh).specs ∧
    cSpecFin ∈ (cDqSet.setQueue cUrls (-1) 100 cFresh).specs ∧
    kvRead (cDqSet.setQueue cUrls (-1) 100 cFresh).kvfs
      (cDqSet.keyFromId "other-id") = none ∧
    (cDqSet.setQueue cUrls (-1) 100 cFresh).fsExists cSpecOther.path =
      false ∧
    (cDqSet.setQueue cUrls (-1) 100 cFresh).specs.any
      (fun s => s.url == "http://new/1" && decide (0 < s.createTime)) =
      true := by
  have h := setQueue_reconcile cDqSet cUrls (-1) 100 cFresh
    (by decide) (by decide) (by decide)
    (by intro i s hs
        fin_cases hs <;>
          simp [cFresh, cSpecLazy, cSpecFin, cSpecOther])
    (by decide)
  have hc := (h.2.2.1 cSpecOther (by decide) (by decide) (by decide)).1
    (by decide)
  have hd := h.2.2.2 "http://new/1" (by decide) (by decide)
  obtain ⟨s, hs, hsu, hsa⟩ := hd
  refine ⟨(h.1 cSpecLazy (by decide) (by decide) (by decide)).1,
    (h.2.1 cSpecFin (by decide) (by decide) (by decide)).1,
    hc.2.1, hc.2.2, ?_⟩
  rw [List.any_eq_true]
  exact ⟨s, hs, by simp [hsu, hsa]⟩
